import Mathlib

/-!
# A shallow embedding of the LSH-style simple shell (`oslab_shell/main.c`)

The C program is a read / tokenize / dispatch loop.  Its functions are embedded
as Lean functions over an explicit world state; every answer of the operating
system and of the C library's allocator is taken from an oracle `OS`, so that
a theorem quantified over `OS` speaks about every outcome of those calls.

Conventions of the embedding

* a C string is the list of its characters before the terminating NUL;
* a `char **` array is a list of cells, a cell being uninitialised, `NULL`, or a
  pointer to a C string; a store outside the array is a fault;
* an `int` holds a natural number up to `INT_MAX` (32 bits); the additions on the
  counters `position` and `bufsize` are checked against it, and a result above
  `INT_MAX`, which is signed overflow and undefined in C, ends the call in a fault;
  `size_t` is taken wide enough for `bufsize * sizeof(char *)`;
* a function ends by returning, by `exit`, by replacing the process image, or by
  blocking for ever in `waitpid`.
-/

namespace Lsh

/-! ## C strings and the C library -/

/-- A C string: its characters before the terminating NUL. -/
abbrev CStr := List Char

/-- The NUL character that terminates a C string. -/
def NUL : Char := Char.ofNat 0

/-- The C string that starts at the beginning of a character buffer: everything
before the first NUL. -/
def cstr (buf : List Char) : CStr := buf.takeWhile (fun c => c != NUL)

/-- The value of `EXIT_SUCCESS` (stdlib.h). -/
def EXIT_SUCCESS : Int := 0

/-- The value of `EXIT_FAILURE` (stdlib.h, POSIX). -/
def EXIT_FAILURE : Int := 1

/-- The value of `INT_MAX` (limits.h) for a 32-bit `int`. -/
def INT_MAX : Nat := 2147483647

/-- `#define LSH_TOK_BUFSIZE 64` -/
def LSH_TOK_BUFSIZE : Nat := 64

/-- `#define LSH_TOK_DELIM " \t\r\n\a"`: space, tab, carriage return, newline, bell. -/
def LSH_TOK_DELIM : CStr := [' ', '\t', '\r', '\n', Char.ofNat 7]

/-- `strspn(s, accept)`: length of the initial segment of `s` made of characters of `accept`. -/
def strspn (s accept : CStr) : Nat := (s.takeWhile (fun c => accept.contains c)).length

/-- `strcspn(s, reject)`: length of the initial segment of `s` free of characters of `reject`. -/
def strcspn (s reject : CStr) : Nat := (s.takeWhile (fun c => !reject.contains c)).length

/-- `strtok(str, delim)` of the C library, with its hidden save pointer made explicit.
`str = some s` starts scanning the C string `s`; `str = none` (a `NULL` argument)
resumes at the save pointer.  Leading delimiters are skipped; if nothing is left the
result is `NULL`; otherwise the token runs up to the next delimiter, which is
overwritten by NUL, and the save pointer is put just after it (or at the end of the
string when the token is the last thing in it).  The result is the token returned
and the new save pointer. -/
def strtok (str : Option (List Char)) (delim : CStr) (save : CStr) : Option CStr × CStr :=
  let s : CStr := match str with
    | some s => cstr s
    | none => save
  let s := s.drop (strspn s delim)
  if s = [] then (none, [])
  else
    let n := strcspn s delim
    (some (s.take n), (s.drop n).drop 1)

/-! ## The operating system and the world state -/

/-- The text `strerror(errno)` gives for the error of a failed call. -/
abbrev Errno := CStr

/-- A wait status as `waitpid` reports it, seen through the macros of sys/wait.h. -/
inductive WStatus where
  | exited (code : Nat)
  | signaled (sig : Nat)
  | stopped (sig : Nat)
  | continued
  deriving DecidableEq, Repr

/-- `WIFEXITED(status)` -/
def WIFEXITED : WStatus → Bool
  | .exited _ => true
  | _ => false

/-- `WIFSIGNALED(status)` -/
def WIFSIGNALED : WStatus → Bool
  | .signaled _ => true
  | _ => false

/-- The value of `WUNTRACED` (sys/wait.h). -/
def WUNTRACED : Nat := 2

/-- What one call of `fork` gives: the value returned (`0` in the child, negative on
failure, the child's pid in the parent), the error text when it failed, and, for the
parent, the statuses that the successive `waitpid` calls on this child will report
(when they are used up, a further `waitpid` blocks for ever).  Each `waitpid` on the
child is taken to succeed and fill in `status`; a failing `waitpid`, which would leave
`status` as it was, is not modelled. -/
structure ForkOutcome where
  pid : Int
  errno : Errno
  statuses : List WStatus
  deriving DecidableEq, Repr

/-- The answers of the environment.  Each is indexed by the clock of the world, which
advances at every question, so successive calls may be answered differently.
* `alloc`: does this `malloc` / `realloc` succeed;
* `chdir`: `none` when `chdir(path)` succeeds, else the error;
* `fork`: see `ForkOutcome`;
* `execvp`: `none` when the image is replaced, else the error with which it returns `-1`;
* `stdin_error`: what `getline` meets once the input is used up: `none` for a clean
  end of input, `some e` for a read error. -/
structure OS where
  alloc : Nat → Bool
  chdir : Nat → CStr → Option Errno
  fork : Nat → ForkOutcome
  execvp : Nat → CStr → List CStr → Option Errno
  stdin_error : Option Errno

/-- What the process does that is visible from outside, in program order. -/
inductive Event where
  | stdout (s : CStr)
  | stderr (s : CStr)
  | getline (line : Option CStr)
  | chdir (path : CStr) (ok : Bool)
  | fork (pid : Int)
  | execvp (file : CStr) (argv : List CStr)
  | waitpid (pid : Int) (options : Nat) (status : WStatus)
  deriving DecidableEq, Repr

/-- The mutable state: the oracle clock, `errno` (as its error text), the working
directory (named by the path given to the last successful `chdir`), the input not yet
read (cut into the pieces `getline` will deliver), and the events so far, oldest
first. -/
structure World where
  clock : Nat
  errno : Errno
  cwd : CStr
  stdin : List CStr
  trace : List Event
  deriving DecidableEq, Repr

/-- Why a run left defined behaviour. -/
inductive Fault where
  | outOfBounds
  | outOfFuel
  | intOverflow
  deriving DecidableEq, Repr

/-- How a call ends. -/
inductive Res (α : Type) where
  | ret (a : α) (w : World)
  | exit (code : Int) (w : World)
  | exec (w : World)
  | hang (w : World)
  | fault (why : Fault) (w : World)
  deriving DecidableEq, Repr

/-- The world in which a call ended. -/
def Res.world {α : Type} : Res α → World
  | .ret _ w => w
  | .exit _ w => w
  | .exec w => w
  | .hang w => w
  | .fault _ w => w

/-- One tick of the oracle clock. -/
def tick (w : World) : World := { w with clock := w.clock + 1 }

/-- Append an event to the trace. -/
def emit (e : Event) (w : World) : World := { w with trace := w.trace ++ [e] }

/-- `printf` of a finished text to standard output. -/
def printf (s : String) (w : World) : World := emit (.stdout s.toList) w

/-- `fprintf(stderr, ...)` of a finished text. -/
def fprintf_stderr (s : String) (w : World) : World := emit (.stderr s.toList) w

/-- `perror(s)`: writes `s`, a colon, a space, the text of `errno` and a newline to
standard error. -/
def perror (s : String) (w : World) : World :=
  emit (.stderr (s.toList ++ ": ".toList ++ w.errno ++ "\n".toList)) w

/-- Sequencing: the rest of a function runs only when the call returned. -/
def Res.bind {α β : Type} (r : Res α) (f : α → World → Res β) : Res β :=
  match r with
  | .ret a w => f a w
  | .exit code w => .exit code w
  | .exec w => .exec w
  | .hang w => .hang w
  | .fault why w => .fault why w

/-! ## The token buffer -/

/-- One `char *` cell of the token array. -/
inductive Cell where
  | garbage
  | null
  | ptr (s : CStr)
  deriving DecidableEq, Repr

/-- `malloc(n * sizeof(char *))` when it succeeds: `n` uninitialised cells. -/
def malloc (n : Nat) : List Cell := List.replicate n Cell.garbage

/-- `realloc(a, n * sizeof(char *))` when it succeeds: the old cells (cut to `n`),
then uninitialised ones. -/
def realloc (a : List Cell) (n : Nat) : List Cell :=
  a.take n ++ List.replicate (n - a.length) Cell.garbage

/-- The store `a[i] = v`; `none` when `i` is outside the array. -/
def store (a : List Cell) (i : Nat) (v : Cell) : Option (List Cell) :=
  if i < a.length then some (a.set i v) else none

/-- The token sequence a NULL-terminated array holds: the strings pointed to, up to
the first cell that is not a pointer. -/
def argv : List Cell → List CStr
  | Cell.ptr s :: rest => s :: argv rest
  | _ => []

/-- The locals of `lsh_split_line` when it returns: the array returned, and the final
`bufsize` and `position`, two `int` values (the loop faults before either would pass
`INT_MAX`). -/
structure TokBuf where
  tokens : List Cell
  bufsize : Nat
  position : Nat
  deriving DecidableEq, Repr

/-- The `while (token != NULL)` loop of `lsh_split_line` and the two statements after
it.  `fuel` bounds the number of times the loop condition is evaluated.  `position++`
and `bufsize += LSH_TOK_BUFSIZE` are `int` additions: a result above `INT_MAX` ends the
call in the fault `intOverflow`. -/
def lsh_split_line.loop (os : OS) :
    Nat → Option CStr → CStr → List Cell → Nat → Nat → World → Res TokBuf
  | 0, _, _, _, _, _, w => .fault .outOfFuel w
  | _ + 1, none, _, tokens, bufsize, position, w =>
    match store tokens position Cell.null with
    | none => .fault .outOfBounds w
    | some tokens => .ret ⟨tokens, bufsize, position⟩ w
  | fuel + 1, some token, save, tokens, bufsize, position, w =>
    match store tokens position (Cell.ptr token) with
    | none => .fault .outOfBounds w
    | some tokens =>
      if position + 1 > INT_MAX then .fault .intOverflow w
      else
        let position := position + 1
        if position ≥ bufsize then
          if bufsize + LSH_TOK_BUFSIZE > INT_MAX then .fault .intOverflow w
          else
            let bufsize := bufsize + LSH_TOK_BUFSIZE
            if os.alloc w.clock then
              let tokens := realloc tokens bufsize
              let next := strtok none LSH_TOK_DELIM save
              lsh_split_line.loop os fuel next.1 next.2 tokens bufsize position (tick w)
            else
              .exit EXIT_FAILURE (fprintf_stderr "lsh: allocation error\n" (tick w))
        else
          let next := strtok none LSH_TOK_DELIM save
          lsh_split_line.loop os fuel next.1 next.2 tokens bufsize position w

/-- `char **lsh_split_line(char *line)` -/
def lsh_split_line (os : OS) (line : List Char) (w : World) : Res TokBuf :=
  let bufsize := LSH_TOK_BUFSIZE
  let position := 0
  if os.alloc w.clock then
    let tokens := malloc bufsize
    let first := strtok (some line) LSH_TOK_DELIM []
    lsh_split_line.loop os (line.length + 1) first.1 first.2 tokens bufsize position (tick w)
  else
    .exit EXIT_FAILURE (fprintf_stderr "lsh: allocation error\n" (tick w))

/-! ## The specification of the tokenizer, in the words of the specification -/

/-- A delimiter: space, tab, carriage return, newline or bell. -/
def isDelim (c : Char) : Bool :=
  c = ' ' || c = '\t' || c = '\r' || c = '\n' || c = Char.ofNat 7

/-- The maximal non-empty runs of non-delimiter characters of a line, from left to
right: the line is cut at every delimiter and the empty pieces are dropped. -/
def spec_tokens (line : List Char) : List CStr :=
  (line.splitOnP isDelim).filter (fun t => !t.isEmpty)

/-! ## System calls -/

/-- `chdir(path)`: asks the oracle; on success the working directory becomes `path`
and the call returns `0`, on failure `errno` is set and the call returns `-1`. -/
def chdir (os : OS) (path : CStr) (w : World) : Int × World :=
  match os.chdir w.clock path with
  | none => (0, emit (.chdir path true) { tick w with cwd := path })
  | some e => (-1, emit (.chdir path false) { tick w with errno := e })

/-- `fork()`: asks the oracle; a negative result sets `errno`. -/
def fork (os : OS) (w : World) : ForkOutcome × World :=
  let o := os.fork w.clock
  (o, emit (.fork o.pid) (if o.pid < 0 then { tick w with errno := o.errno } else tick w))

/-- `waitpid(pid, &status, WUNTRACED)` on a child whose pending statuses are `st :: _`. -/
def waitpid (pid : Int) (options : Nat) (st : WStatus) (w : World) : World :=
  emit (.waitpid pid options st) w

/-- `strcmp(a, b)`, up to the size of a non-zero result: `0` exactly when the strings
are equal, else negative or positive by lexicographic order. -/
def strcmp (a b : CStr) : Int :=
  if a = b then 0 else if a < b then -1 else 1

/-! ## The builtins -/

/-- The names of `char *builtin_str[]`, in order. -/
def builtin_str : List CStr := ["cd".toList, "help".toList, "exit".toList]

/-- `int lsh_num_builtins()`: `sizeof(builtin_str) / sizeof(char *)`. -/
def lsh_num_builtins : Nat := builtin_str.length

/-- `int lsh_cd(char **args)` -/
def lsh_cd (os : OS) (args : List CStr) (w : World) : Res Int :=
  match args[1]? with
  | none => .ret 1 (fprintf_stderr "lsh: expected argument to \"cd\"\n" w)
  | some path =>
    let r := chdir os path w
    if r.1 ≠ 0 then .ret 1 (perror "lsh" r.2)
    else .ret 1 r.2

/-- `int lsh_help(char **args)` -/
def lsh_help (_os : OS) (_args : List CStr) (w : World) : Res Int :=
  let w := printf "Stephen Brennan's LSH (lab version)\n" w
  let w := printf "Type program names and arguments, then hit enter.\n" w
  let w := printf "Builtins:\n" w
  let w := (List.range lsh_num_builtins).foldl
    (fun w i => emit (.stdout ("  ".toList ++ builtin_str.getD i [] ++ "\n".toList)) w) w
  let w := printf "Use the man command for info on other programs.\n" w
  .ret 1 w

/-- `int lsh_exit(char **args)` -/
def lsh_exit (_os : OS) (_args : List CStr) (w : World) : Res Int :=
  .ret 0 w

/-- The handlers of `int (*builtin_func[])(char **)`, in order. -/
def builtin_func : List (OS → List CStr → World → Res Int) := [lsh_cd, lsh_help, lsh_exit]

/-! ## Launching a program -/

/-- The `do ... while (!WIFEXITED(status) && !WIFSIGNALED(status))` loop of the parent
branch of `lsh_launch`, over the statuses the child will report.  With no status left,
`waitpid` never returns. -/
def lsh_launch.wait (pid : Int) : List WStatus → World → Res Unit
  | [], w => .hang w
  | status :: rest, w =>
    let w := waitpid pid WUNTRACED status w
    if !WIFEXITED status && !WIFSIGNALED status then lsh_launch.wait pid rest w
    else .ret () w

/-- `int lsh_launch(char **args)`.  In the child branch (`fork` returned `0`) the call
ends by replacing the image or by `exit(EXIT_FAILURE)`. -/
def lsh_launch (os : OS) (args : List CStr) (w : World) : Res Int :=
  let f := fork os w
  let pid := f.1.pid
  let w := f.2
  if pid = 0 then
    match os.execvp w.clock (args.headD []) args with
    | none => .exec (emit (.execvp (args.headD []) args) (tick w))
    | some e =>
      let w := emit (.execvp (args.headD []) args) { tick w with errno := e }
      .exit EXIT_FAILURE (perror "lsh" w)
  else if pid < 0 then
    .ret 1 (perror "lsh" w)
  else
    (lsh_launch.wait pid f.1.statuses w).bind fun _ w => .ret 1 w

/-! ## Dispatch -/

/-- `int lsh_execute(char **args)`: the `for` loop finds the first index `i` below
`lsh_num_builtins()` with `strcmp(args[0], builtin_str[i]) == 0`. -/
def lsh_execute (os : OS) (args : List CStr) (w : World) : Res Int :=
  match args[0]? with
  | none => .ret 1 w
  | some name =>
    match (List.range lsh_num_builtins).find?
        (fun i => strcmp name (builtin_str.getD i []) == 0) with
    | some i =>
      match builtin_func[i]? with
      | some f => f os args w
      | none => .fault .outOfBounds w
    | none => lsh_launch os args w

/-! ## Reading and the main loop -/

/-- `char *lsh_read_line(void)`: `getline` delivers the next piece of the input, or
fails at its end; then `feof` tells a clean end of input from a read error. -/
def lsh_read_line (os : OS) (w : World) : Res CStr :=
  match w.stdin with
  | line :: rest => .ret line (emit (.getline (some line)) { w with stdin := rest })
  | [] =>
    match os.stdin_error with
    | none => .exit EXIT_SUCCESS (emit (.getline none) w)
    | some e => .exit EXIT_FAILURE (perror "readline" (emit (.getline none) { w with errno := e }))

/-- `void lsh_loop(void)`: the `do ... while (status)` loop.  `fuel` bounds the number
of iterations. -/
def lsh_loop (os : OS) : Nat → World → Res Unit
  | 0, w => .fault .outOfFuel w
  | fuel + 1, w =>
    let w := printf "> " w
    (lsh_read_line os w).bind fun line w =>
    (lsh_split_line os line w).bind fun args w =>
    (lsh_execute os (argv args.tokens) w).bind fun status w =>
    if status ≠ 0 then lsh_loop os fuel w else .ret () w

/-- `int main(int argc, char **argv)`; each iteration of the loop reads one piece of
the input, so `stdin.length + 1` iterations are enough. -/
def main (os : OS) (w : World) : Res Int :=
  (lsh_loop os (w.stdin.length + 1) w).bind fun _ w => .ret EXIT_SUCCESS w

/-- The pieces in which `getline` delivers an input: each ends just after a newline,
the last one possibly at the end of the input. -/
def stdin_lines : List Char → List CStr
  | [] => []
  | c :: cs =>
    if c = '\n' then [c] :: stdin_lines cs
    else
      match stdin_lines cs with
      | [] => [[c]]
      | l :: ls => (c :: l) :: ls

/-- The process exit code of a run of `main`, when the process ended. -/
def exit_code : Res Int → Option Int
  | .ret code _ => some code
  | .exit code _ => some code
  | _ => none

/-- The texts written to standard output, in order. -/
def stdout_of : List Event → List CStr
  | [] => []
  | .stdout s :: es => s :: stdout_of es
  | _ :: es => stdout_of es

/-- The texts written to standard error, in order. -/
def stderr_of : List Event → List CStr
  | [] => []
  | .stderr s :: es => s :: stderr_of es
  | _ :: es => stderr_of es

/-! ## Auxiliary definitions for the statements and the proofs -/

/-- The scan of `strtok` from a given C string: skip the delimiters, then cut the run. -/
def scan (s : CStr) : Option CStr × CStr :=
  if s.dropWhile isDelim = [] then (none, [])
  else
    (some ((s.dropWhile isDelim).takeWhile (fun c => !isDelim c)),
      ((s.dropWhile isDelim).dropWhile (fun c => !isDelim c)).drop 1)

/-- The tokens still to come when `strtok` has just returned `r.1` with save pointer `r.2`. -/
def pending (r : Option CStr × CStr) : List CStr :=
  match r.1 with
  | none => []
  | some t => t :: spec_tokens r.2

/-- The array `lsh_split_line` returns for the tokens `ts` after the cells `cells`. -/
def filled (cells : List Cell) (ts : List CStr) : List Cell :=
  cells ++ ts.map Cell.ptr ++ Cell.null ::
    List.replicate (LSH_TOK_BUFSIZE * ((cells.length + ts.length) / LSH_TOK_BUFSIZE + 1)
      - (cells.length + ts.length) - 1) Cell.garbage

/-- The loop of `lsh_split_line` driven by the list of tokens still to come, in
place of `strtok` and the fuel: the same stores, overflow checks, growth and
allocation requests.  It serves to say that the loop depends on the line only through
its tokens. -/
def store_all (os : OS) : List CStr → List Cell → Nat → Nat → World → Res TokBuf
  | [], tokens, bufsize, position, w =>
    match store tokens position Cell.null with
    | none => .fault .outOfBounds w
    | some tokens => .ret ⟨tokens, bufsize, position⟩ w
  | token :: rest, tokens, bufsize, position, w =>
    match store tokens position (Cell.ptr token) with
    | none => .fault .outOfBounds w
    | some tokens =>
      if position + 1 > INT_MAX then .fault .intOverflow w
      else
        let position := position + 1
        if position ≥ bufsize then
          if bufsize + LSH_TOK_BUFSIZE > INT_MAX then .fault .intOverflow w
          else
            let bufsize := bufsize + LSH_TOK_BUFSIZE
            if os.alloc w.clock then
              store_all os rest (realloc tokens bufsize) bufsize position (tick w)
            else
              .exit EXIT_FAILURE (fprintf_stderr "lsh: allocation error\n" (tick w))
        else
          store_all os rest tokens bufsize position w

/-- A line whose number of tokens `n` lets the counters of `lsh_split_line` stay within
`int`: `n + 64 <= INT_MAX`, that is, fewer than `2^31 - 64` tokens. -/
def fits_int (line : List Char) : Prop :=
  (spec_tokens (cstr line)).length + LSH_TOK_BUFSIZE ≤ INT_MAX

/-- The fault in which a call ended, if it ended in one. -/
def Res.fault_kind {α : Type} : Res α → Option Fault
  | .fault why _ => some why
  | _ => none

/-- A world at the start of a run whose input is the given lines. -/
def world_with (lines : List CStr) : World :=
  ⟨0, [], "/".toList, lines, []⟩

/-- `Runs line ts`: `ts` are the maximal non-empty runs of non-delimiter characters of
`line`, from left to right.  The line is a gap of delimiters alone; or a gap, a
non-empty delimiter-free run and the end of the line; or a gap, such a run, one
delimiter, and a rest whose runs are the remaining tokens. -/
inductive Runs : List Char → List CStr → Prop where
  | done (gap : List Char) (hgap : ∀ c ∈ gap, isDelim c = true) : Runs gap []
  | last (gap run : List Char) (hgap : ∀ c ∈ gap, isDelim c = true) (hne : run ≠ [])
      (hrun : ∀ c ∈ run, isDelim c = false) : Runs (gap ++ run) [run]
  | next (gap run : List Char) (sep : Char) (rest : List Char) (ts : List CStr)
      (hgap : ∀ c ∈ gap, isDelim c = true) (hne : run ≠ [])
      (hrun : ∀ c ∈ run, isDelim c = false) (hsep : isDelim sep = true)
      (hrest : Runs rest ts) : Runs (gap ++ run ++ sep :: rest) (run :: ts)

/-- An environment in which every allocation succeeds, `chdir` succeeds on `/tmp` alone,
`fork` fails, `execvp` fails and the input ends cleanly. -/
def os_plain : OS where
  alloc := fun _ => true
  chdir := fun _ path =>
    if path = "/tmp".toList then none else some "No such file or directory".toList
  fork := fun _ => ⟨-1, "Resource temporarily unavailable".toList, []⟩
  execvp := fun _ _ _ => some "No such file or directory".toList
  stdin_error := none

/-- A world at the start of a run, with the given input still to be read. -/
def world_start (input : String) : World :=
  ⟨0, [], "/".toList, stdin_lines input.toList, []⟩

/-- The token sequence `lsh_split_line` returned, when it returned. -/
def returned_tokens : Res TokBuf → Option (List CStr)
  | .ret buf _ => some (argv buf.tokens)
  | _ => none

/-- A line of `k` tokens: `k` times the letter `a` followed by a space. -/
def line_of_tokens (k : Nat) : List Char := (List.replicate k ['a', ' ']).flatten

/-- The final `position` and `bufsize` of a call of `lsh_split_line` that returned. -/
def returned_counters : Res TokBuf → Option (Nat × Nat)
  | .ret buf _ => some (buf.position, buf.bufsize)
  | _ => none

/-- A wait status after which the parent stops waiting. -/
def terminal (st : WStatus) : Bool := WIFEXITED st || WIFSIGNALED st

/-- The `waitpid` events of the parent for the given statuses of child `pid`. -/
def wait_events (pid : Int) (sts : List WStatus) : List Event :=
  sts.map fun st => Event.waitpid pid WUNTRACED st

/-- The world after the events `es`. -/
def after (es : List Event) (w : World) : World := { w with trace := w.trace ++ es }

/-- An environment like `os_plain` in which `fork` succeeds in the parent: the child
has pid 42 and reports the given statuses. -/
def os_child (sts : List WStatus) : OS :=
  { os_plain with fork := fun _ => ⟨42, [], sts⟩ }

/-- An event of the body of an iteration that is neither a prompt nor a read, and
whose text, if it goes to standard error, starts with `lsh:`. -/
def quiet : Event → Bool
  | .stdout s => s != "> ".toList
  | .getline _ => false
  | .stderr s => "lsh:".toList.isPrefixOf s
  | _ => true

/-- `Ext w v`: the world `v` comes from `w` by events that are all `quiet`, with the
same input still to be read. -/
def Ext (w v : World) : Prop :=
  v.stdin = w.stdin ∧ ∃ q, v.trace = w.trace ++ q ∧ ∀ e ∈ q, quiet e = true

/-- What `lsh_help` prints: the banner, the three names, the closing line. -/
def help_events : List Event :=
  [.stdout "Stephen Brennan's LSH (lab version)\n".toList,
    .stdout "Type program names and arguments, then hit enter.\n".toList,
    .stdout "Builtins:\n".toList,
    .stdout "  cd\n".toList, .stdout "  help\n".toList, .stdout "  exit\n".toList,
    .stdout "Use the man command for info on other programs.\n".toList]

/-- A line whose dispatch returns "terminate": its first token is `exit`. -/
def is_exit (line : List Char) : Bool :=
  (spec_tokens (cstr line)).head? == some "exit".toList

/-- The part of one iteration of `lsh_loop` after the line is read: split it and
dispatch the tokens. -/
def body (os : OS) (line : List Char) (w : World) : Res Int :=
  (lsh_split_line os line w).bind fun args w => lsh_execute os (argv args.tokens) w

/-- The prompt event. -/
def prompt : Event := .stdout "> ".toList

/-- The results of the read attempts of a trace, in order. -/
def reads_of : List Event → List (Option CStr)
  | [] => []
  | .getline r :: es => r :: reads_of es
  | _ :: es => reads_of es

/-- The number of prompts written in a trace. -/
def prompts_of (es : List Event) : Nat := es.count prompt

/-- Every read attempt of the trace comes just after a prompt, and every prompt is
followed at once by a read attempt. -/
def prompted : List Event → Bool
  | [] => true
  | .stdout s :: .getline _ :: es => s == "> ".toList && prompted es
  | .getline _ :: _ => false
  | e :: es => e != prompt && prompted es

/-- The shape of the trace of `lsh_loop` on the input `stdin`: iterations that start
with a prompt and the read of the next line, followed by quiet events; the loop goes
on to a further iteration only after a line that is not an `exit` line; at the end of
the input the last read fails, silently at a clean end, with the `readline`
diagnostic on a read error. -/
inductive LoopTrace (os : OS) : List CStr → List Event → Prop where
  | eof (h : os.stdin_error = none) : LoopTrace os [] [prompt, .getline none]
  | err (e : Errno) (h : os.stdin_error = some e) :
      LoopTrace os [] [prompt, .getline none,
        .stderr ("readline".toList ++ ": ".toList ++ e ++ "\n".toList)]
  | stop (line : CStr) (rest : List CStr) (q : List Event) (hq : ∀ e ∈ q, quiet e = true) :
      LoopTrace os (line :: rest) ([prompt, .getline (some line)] ++ q)
  | step (line : CStr) (rest : List CStr) (q tr : List Event)
      (hq : ∀ e ∈ q, quiet e = true) (hne : is_exit line = false)
      (h : LoopTrace os rest tr) :
      LoopTrace os (line :: rest) ([prompt, .getline (some line)] ++ q ++ tr)

/-- A call that ended in a fault. -/
def Res.isFault {α : Type} : Res α → Bool
  | .fault _ _ => true
  | _ => false

/-- The world after the prompt and the read of `line`, with `rest` still to be read. -/
def w_read (line : CStr) (rest : List CStr) (w : World) : World :=
  after [prompt, .getline (some line)] { w with stdin := rest }

/-- An environment in which the shell process runs on: every allocation succeeds,
`fork` never returns 0 (this process is the shell, not a child), and every child
created ends by reporting an exit or a death by signal. -/
def Benign (os : OS) : Prop :=
  (∀ k, os.alloc k = true) ∧ (∀ k, (os.fork k).pid ≠ 0)
    ∧ (∀ k, 0 < (os.fork k).pid → ∃ st ∈ (os.fork k).statuses, terminal st = true)

/-- The events of the run on the two lines `cd /tmp` and `exit` when the change of
directory succeeds. -/
def cd_tmp_exit_events : List Event :=
  [prompt, .getline (some "cd /tmp\n".toList), .chdir "/tmp".toList true,
    prompt, .getline (some "exit\n".toList)]

/-- The events of a run of `main` from the world `w`: what it adds to the trace. -/
def run_events (os : OS) (w : World) : List Event :=
  (main os w).world.trace.drop w.trace.length

/-- An environment like `os_plain` in which reading the input fails with an error. -/
def os_read_error : OS :=
  { os_plain with stdin_error := some "Input/output error".toList }

/-! ## The tokenizer: `strtok` against the specification -/

theorem contains_delim (c : Char) : LSH_TOK_DELIM.contains c = isDelim c := by
  rw [Bool.eq_iff_iff]
  simp [LSH_TOK_DELIM, isDelim, or_assoc]

theorem take_length_takeWhile {α : Type} (p : α → Bool) (l : List α) :
    l.take (l.takeWhile p).length = l.takeWhile p := by
  induction l with
  | nil => rfl
  | cons a l ih =>
    by_cases h : p a
    · simp [List.takeWhile_cons, h, ih]
    · simp [List.takeWhile_cons, h]

theorem drop_length_takeWhile {α : Type} (p : α → Bool) (l : List α) :
    l.drop (l.takeWhile p).length = l.dropWhile p := by
  induction l with
  | nil => rfl
  | cons a l ih =>
    by_cases h : p a
    · simp [List.takeWhile_cons, List.dropWhile_cons, h, ih]
    · simp [List.takeWhile_cons, List.dropWhile_cons, h]

theorem strtok_resume (save : CStr) : strtok none LSH_TOK_DELIM save = scan save := by
  have e1 : (fun c => LSH_TOK_DELIM.contains c) = isDelim := funext contains_delim
  have e2 : (fun c => !LSH_TOK_DELIM.contains c) = (fun c => !isDelim c) :=
    funext fun c => by rw [contains_delim]
  simp only [strtok, strspn, strcspn, scan, e1, e2, drop_length_takeWhile,
    take_length_takeWhile]

theorem strtok_start (line : List Char) (save : CStr) :
    strtok (some line) LSH_TOK_DELIM save = scan (cstr line) := by
  have e1 : (fun c => LSH_TOK_DELIM.contains c) = isDelim := funext contains_delim
  have e2 : (fun c => !LSH_TOK_DELIM.contains c) = (fun c => !isDelim c) :=
    funext fun c => by rw [contains_delim]
  simp only [strtok, strspn, strcspn, scan, e1, e2, drop_length_takeWhile,
    take_length_takeWhile]

theorem spec_tokens_nil : spec_tokens [] = [] := rfl

theorem spec_tokens_cons_delim (c : Char) (cs : List Char) (h : isDelim c = true) :
    spec_tokens (c :: cs) = spec_tokens cs := by
  simp [spec_tokens, List.splitOnP_cons, h]

theorem spec_tokens_dropWhile (s : List Char) :
    spec_tokens (s.dropWhile isDelim) = spec_tokens s := by
  induction s with
  | nil => rfl
  | cons c cs ih =>
    by_cases h : isDelim c = true
    · rw [List.dropWhile_cons, if_pos h, ih, spec_tokens_cons_delim c cs h]
    · rw [List.dropWhile_cons, if_neg h]

theorem spec_tokens_of_all_delim (s : List Char) (h : ∀ c ∈ s, isDelim c = true) :
    spec_tokens s = [] := by
  induction s with
  | nil => rfl
  | cons c cs ih =>
    rw [spec_tokens_cons_delim c cs (h c (List.mem_cons_self _ _))]
    exact ih fun x hx => h x (List.mem_cons_of_mem _ hx)

/-- A delimiter-free, non-empty run followed by a delimiter is the first token. -/
theorem spec_tokens_run_sep (run : CStr) (sep : Char) (rest : List Char) (hne : run ≠ [])
    (hrun : ∀ c ∈ run, isDelim c = false) (hsep : isDelim sep = true) :
    spec_tokens (run ++ sep :: rest) = run :: spec_tokens rest := by
  unfold spec_tokens
  rw [List.splitOnP_first isDelim run (fun x hx => by simp [hrun x hx]) sep hsep rest]
  cases run with
  | nil => exact absurd rfl hne
  | cons a l => simp [List.filter_cons]

/-- A delimiter-free, non-empty line is one token. -/
theorem spec_tokens_run (run : CStr) (hne : run ≠ [])
    (hrun : ∀ c ∈ run, isDelim c = false) : spec_tokens run = [run] := by
  unfold spec_tokens
  rw [List.splitOnP_eq_single isDelim run (fun x hx => by simp [hrun x hx])]
  cases run with
  | nil => exact absurd rfl hne
  | cons a l => simp [List.filter_cons]

theorem head_dropWhile_delim (s : List Char) (c : Char) (cs : List Char)
    (h : s.dropWhile isDelim = c :: cs) : isDelim c = false := by
  have := List.head?_dropWhile_not isDelim s
  rw [h] at this
  simpa using this

theorem pending_scan (s : CStr) : pending (scan s) = spec_tokens s := by
  rw [← spec_tokens_dropWhile s]
  unfold scan
  cases hd : s.dropWhile isDelim with
  | nil => simp [pending, spec_tokens_nil]
  | cons c cs =>
    have hc : isDelim c = false := head_dropWhile_delim s c cs hd
    rw [if_neg (by simp)]
    simp only [pending]
    have hsplit := List.takeWhile_append_dropWhile (fun c => !isDelim c) (c :: cs)
    have hrun : ∀ x ∈ (c :: cs).takeWhile (fun c => !isDelim c), isDelim x = false := by
      intro x hx
      simpa using List.mem_takeWhile_imp hx
    have hne : (c :: cs).takeWhile (fun c => !isDelim c) ≠ [] := by
      simp [List.takeWhile_cons, hc]
    cases hdw : (c :: cs).dropWhile (fun c => !isDelim c) with
    | nil =>
      rw [hdw, List.append_nil] at hsplit
      rw [hsplit]
      simp only [List.drop_nil, spec_tokens_nil]
      exact (spec_tokens_run (c :: cs) (by simp) (by rw [← hsplit]; exact hrun)).symm
    | cons d r =>
      have hd2 : isDelim d = true := by
        have := List.head?_dropWhile_not (fun c => !isDelim c) (c :: cs)
        rw [hdw] at this
        simpa using this
      rw [hdw] at hsplit
      conv_rhs => rw [← hsplit]
      rw [spec_tokens_run_sep _ d r hne hrun hd2]
      simp

theorem filter_length_le_cons {α : Type} (f : α → Bool) (a : α) (l : List α) :
    (l.filter f).length ≤ ((a :: l).filter f).length := by
  rw [List.filter_cons]
  split <;> simp

theorem spec_tokens_length_le (s : List Char) : (spec_tokens s).length ≤ s.length := by
  induction s with
  | nil => simp [spec_tokens_nil]
  | cons c cs ih =>
    by_cases h : isDelim c = true
    · rw [spec_tokens_cons_delim c cs h]
      exact Nat.le_succ_of_le ih
    · unfold spec_tokens at ih ⊢
      rw [List.splitOnP_cons, if_neg h]
      cases hs : List.splitOnP isDelim cs with
      | nil => exact absurd hs (List.splitOnP_ne_nil _ _)
      | cons a l =>
        rw [hs] at ih
        simp only [List.modifyHead_cons, List.filter_cons, List.isEmpty_cons, Bool.not_false,
          if_true, List.length_cons]
        exact Nat.succ_le_succ (Nat.le_trans (filter_length_le_cons _ a l) ih)

theorem pending_scan_length_lt (line : List Char) :
    (pending (scan (cstr line))).length < line.length + 1 := by
  rw [pending_scan]
  have h1 := spec_tokens_length_le (cstr line)
  have h2 : (cstr line).length ≤ line.length := (List.takeWhile_sublist _).length_le
  omega

theorem store_at_end (cells : List Cell) (p k : Nat) (v : Cell) (hp : cells.length = p)
    (hk : 0 < k) :
    store (cells ++ List.replicate k Cell.garbage) p v
      = some (cells ++ v :: List.replicate (k - 1) Cell.garbage) := by
  obtain ⟨j, rfl⟩ : ∃ j, k = j + 1 := ⟨k - 1, by omega⟩
  subst hp
  simp [store, List.replicate_succ]

theorem loop_eq_store_all (os : OS) (fuel : Nat) :
    ∀ (tok : Option CStr) (save : CStr) (tokens : List Cell) (bufsize position : Nat)
      (w : World), (pending (tok, save)).length < fuel →
      lsh_split_line.loop os fuel tok save tokens bufsize position w
        = store_all os (pending (tok, save)) tokens bufsize position w := by
  induction fuel with
  | zero => intro tok save tokens bufsize position w h; exact absurd h (Nat.not_lt_zero _)
  | succ fuel ih =>
    intro tok save tokens bufsize position w hfuel
    cases tok with
    | none => simp only [pending, lsh_split_line.loop, store_all]
    | some t =>
      have hp : pending (some t, save) = t :: spec_tokens save := rfl
      have hn : pending (scan save) = spec_tokens save := pending_scan save
      rw [hp] at hfuel ⊢
      simp only [List.length_cons] at hfuel
      simp only [lsh_split_line.loop, store_all, strtok_resume]
      cases store tokens position (Cell.ptr t) with
      | none => rfl
      | some tokens1 =>
        have hlt : (pending ((scan save).1, (scan save).2)).length < fuel := by
          rw [hn]; omega
        simp only [ih _ _ _ _ _ _ hlt, hn]

/-- `lsh_split_line` depends on the line only through the tokens of its C string. -/
theorem lsh_split_line_eq (os : OS) (line : List Char) (w : World) :
    lsh_split_line os line w =
      if os.alloc w.clock then
        store_all os (spec_tokens (cstr line)) (malloc LSH_TOK_BUFSIZE) LSH_TOK_BUFSIZE 0 (tick w)
      else .exit EXIT_FAILURE (fprintf_stderr "lsh: allocation error\n" (tick w)) := by
  unfold lsh_split_line
  simp only [strtok_start]
  rw [loop_eq_store_all os _ (scan (cstr line)).1 (scan (cstr line)).2 _ _ _ _
    (pending_scan_length_lt line)]
  rw [show ((scan (cstr line)).1, (scan (cstr line)).2) = scan (cstr line) from rfl,
    pending_scan]

/-- Whatever the allocator answers, the loop of `lsh_split_line`, started with
`position` cells filled and a buffer of `bufsize = 64 * (position / 64 + 1)` cells
within `int`, ends in one of three ways: it returns the filled array, and then the
token count fits `int`; or it ends the process on a failed `realloc`; or `bufsize`
would pass `INT_MAX`, and then the token count does not fit.  It changes nothing of
the world but the oracle clock, and no store leaves the array. -/
theorem store_all_cases (os : OS) (ts : List CStr) :
    ∀ (cells : List Cell) (bufsize position : Nat) (w : World),
      cells.length = position →
      bufsize = LSH_TOK_BUFSIZE * (position / LSH_TOK_BUFSIZE + 1) →
      bufsize ≤ INT_MAX →
      ∃ c, (store_all os ts (cells ++ List.replicate (bufsize - position) Cell.garbage)
              bufsize position w
            = .ret ⟨filled cells ts,
                LSH_TOK_BUFSIZE * ((position + ts.length) / LSH_TOK_BUFSIZE + 1),
                position + ts.length⟩ { w with clock := c }
          ∧ position + ts.length + LSH_TOK_BUFSIZE ≤ INT_MAX)
        ∨ (store_all os ts (cells ++ List.replicate (bufsize - position) Cell.garbage)
              bufsize position w
            = .exit EXIT_FAILURE
                (fprintf_stderr "lsh: allocation error\n" { w with clock := c })
          ∧ ∃ k, os.alloc k = false)
        ∨ (store_all os ts (cells ++ List.replicate (bufsize - position) Cell.garbage)
              bufsize position w
            = .fault .intOverflow { w with clock := c }
          ∧ INT_MAX < position + ts.length + LSH_TOK_BUFSIZE) := by
  induction ts with
  | nil =>
    intro cells bufsize position w hlen hbuf hmax
    simp only [LSH_TOK_BUFSIZE, INT_MAX] at hbuf hmax ⊢
    refine ⟨w.clock, Or.inl ⟨?_, ?_⟩⟩
    · simp only [store_all]
      rw [store_at_end cells position _ _ hlen (by omega)]
      simp only [filled, LSH_TOK_BUFSIZE, List.map_nil, List.append_nil, List.length_nil,
        Nat.add_zero, hlen, ← hbuf, Nat.sub_self]
    · simp only [List.length_nil]
      omega
  | cons t ts ih =>
    intro cells bufsize position w hlen hbuf hmax
    simp only [LSH_TOK_BUFSIZE, INT_MAX] at hbuf hmax ih ⊢
    simp only [store_all]
    rw [store_at_end cells position _ _ hlen (by omega)]
    dsimp only
    have hcells : (cells ++ [Cell.ptr t]).length = position + 1 := by simp [hlen]
    have e1 : position + 1 + ts.length = position + (ts.length + 1) := by omega
    have hfill : filled (cells ++ [Cell.ptr t]) ts = filled cells (t :: ts) := by
      simp only [filled, LSH_TOK_BUFSIZE, hcells, hlen, List.length_cons, List.map_cons,
        List.append_assoc, List.singleton_append, e1]
    have hpos : ¬ position + 1 > 2147483647 := by omega
    rw [if_neg (by simpa only [INT_MAX] using hpos)]
    by_cases hge : position + 1 ≥ bufsize
    · have hb1 : bufsize - position - 1 = 0 := by omega
      rw [if_pos hge, hb1]
      by_cases hov : bufsize + 64 > 2147483647
      · rw [if_pos (by simpa only [INT_MAX, LSH_TOK_BUFSIZE] using hov)]
        refine ⟨w.clock, Or.inr (Or.inr ⟨rfl, ?_⟩)⟩
        simp only [List.length_cons]
        omega
      · rw [if_neg (by simpa only [INT_MAX, LSH_TOK_BUFSIZE] using hov)]
        by_cases ha : os.alloc w.clock = true
        · have hre : realloc (cells ++ Cell.ptr t :: List.replicate 0 Cell.garbage)
              (bufsize + LSH_TOK_BUFSIZE)
              = (cells ++ [Cell.ptr t]) ++
                  List.replicate (bufsize + 64 - (position + 1)) Cell.garbage := by
            have hl : (cells ++ [Cell.ptr t]).length ≤ bufsize + 64 := by omega
            simp only [realloc, List.replicate_zero, LSH_TOK_BUFSIZE]
            rw [List.take_of_length_le hl, hcells]
          rw [if_pos ha, hre]
          obtain ⟨c, hc⟩ := ih (cells ++ [Cell.ptr t]) (bufsize + 64) (position + 1) (tick w)
            hcells (by omega) (by omega)
          refine ⟨c, ?_⟩
          simp only [List.length_cons, ← e1, ← hfill]
          simpa only [tick, LSH_TOK_BUFSIZE] using hc
        · rw [if_neg ha]
          exact ⟨w.clock + 1, Or.inr (Or.inl ⟨rfl, w.clock, by simpa using ha⟩)⟩
    · have hb1 : bufsize - position - 1 = bufsize - (position + 1) := by omega
      rw [if_neg hge, hb1]
      have hre : cells ++ Cell.ptr t :: List.replicate (bufsize - (position + 1)) Cell.garbage
          = (cells ++ [Cell.ptr t]) ++
              List.replicate (bufsize - (position + 1)) Cell.garbage := by simp
      rw [hre]
      obtain ⟨c, hc⟩ := ih (cells ++ [Cell.ptr t]) bufsize (position + 1) w hcells (by omega)
        hmax
      refine ⟨c, ?_⟩
      simp only [List.length_cons, ← e1, ← hfill]
      exact hc

theorem spec_tokens_gap_append (gap s : List Char) (hgap : ∀ c ∈ gap, isDelim c = true) :
    spec_tokens (gap ++ s) = spec_tokens s := by
  induction gap with
  | nil => rfl
  | cons c cs ih =>
    rw [List.cons_append, spec_tokens_cons_delim c _ (hgap c (List.mem_cons_self _ _))]
    exact ih fun x hx => hgap x (List.mem_cons_of_mem _ hx)

/-- The runs of a line are unique: they are `spec_tokens line`. -/
theorem Runs.unique {line : List Char} {ts : List CStr} (h : Runs line ts) :
    spec_tokens line = ts := by
  induction h with
  | done gap hgap => exact spec_tokens_of_all_delim gap hgap
  | last gap run hgap hne hrun =>
    rw [spec_tokens_gap_append gap run hgap, spec_tokens_run run hne hrun]
  | next gap run sep rest ts hgap hne hrun hsep _ ih =>
    rw [List.append_assoc, spec_tokens_gap_append gap _ hgap,
      spec_tokens_run_sep run sep rest hne hrun hsep, ih]

theorem runs_spec_tokens_aux (n : Nat) :
    ∀ line : List Char, line.length ≤ n → Runs line (spec_tokens line) := by
  induction n with
  | zero =>
    intro line h
    have : line = [] := List.length_eq_zero.mp (Nat.le_zero.mp h)
    subst this
    exact Runs.done [] (by simp)
  | succ n ih =>
    intro line h
    have hgap : ∀ c ∈ line.takeWhile isDelim, isDelim c = true :=
      fun c hc => List.mem_takeWhile_imp hc
    have hline : line.takeWhile isDelim ++ line.dropWhile isDelim = line :=
      List.takeWhile_append_dropWhile isDelim line
    have hspec := pending_scan line
    unfold scan at hspec
    cases hd : line.dropWhile isDelim with
    | nil =>
      rw [hd, List.append_nil] at hline
      have hall : ∀ c ∈ line, isDelim c = true := by
        intro c hc
        rw [← hline] at hc
        exact hgap c hc
      rw [spec_tokens_of_all_delim line hall]
      exact Runs.done line hall
    | cons c cs =>
      have hc : isDelim c = false := head_dropWhile_delim line c cs hd
      rw [hd, if_neg (by simp)] at hspec
      simp only [pending] at hspec
      have hsplit := List.takeWhile_append_dropWhile (fun c => !isDelim c) (c :: cs)
      have hrun : ∀ x ∈ (c :: cs).takeWhile (fun c => !isDelim c), isDelim x = false := by
        intro x hx
        simpa using List.mem_takeWhile_imp hx
      have hne : (c :: cs).takeWhile (fun c => !isDelim c) ≠ [] := by
        simp [List.takeWhile_cons, hc]
      rw [hd] at hline
      cases hdw : (c :: cs).dropWhile (fun c => !isDelim c) with
      | nil =>
        rw [hdw] at hsplit hspec
        rw [List.append_nil] at hsplit
        simp only [List.drop_nil, spec_tokens_nil] at hspec
        rw [← hspec]
        have e : line.takeWhile isDelim ++ (c :: cs).takeWhile (fun c => !isDelim c) = line := by
          rw [hsplit]; exact hline
        have := Runs.last _ _ hgap hne hrun
        rwa [e] at this
      | cons d r =>
        have hd2 : isDelim d = true := by
          have := List.head?_dropWhile_not (fun c => !isDelim c) (c :: cs)
          rw [hdw] at this
          simpa using this
        rw [hdw] at hsplit hspec
        simp only [List.drop_succ_cons, List.drop_zero] at hspec
        have hlen : r.length ≤ n := by
          have h1 := congrArg List.length hline
          have h2 := congrArg List.length hsplit
          simp only [List.length_append, List.length_cons] at h1 h2
          omega
        rw [← hspec]
        have e : line.takeWhile isDelim ++ (c :: cs).takeWhile (fun c => !isDelim c) ++ d :: r
            = line := by
          rw [List.append_assoc, hsplit]; exact hline
        have := Runs.next _ _ d r _ hgap hne hrun hd2 (ih r hlen)
        rwa [e] at this

/-- The runs of a line exist: `spec_tokens line` are runs of it. -/
theorem runs_spec_tokens (line : List Char) : Runs line (spec_tokens line) :=
  runs_spec_tokens_aux line.length line (Nat.le_refl _)

/-- Every run is non-empty, free of delimiters, and made of characters of the line. -/
theorem Runs.mem {line : List Char} {ts : List CStr} (h : Runs line ts) :
    ∀ t ∈ ts, t ≠ [] ∧ ∀ c ∈ t, isDelim c = false ∧ c ∈ line := by
  induction h with
  | done gap hgap => intro t ht; simp at ht
  | last gap run hgap hne hrun =>
    intro t ht
    simp only [List.mem_singleton] at ht
    subst ht
    exact ⟨hne, fun c hc => ⟨hrun c hc, List.mem_append_right _ hc⟩⟩
  | next gap run sep rest ts hgap hne hrun hsep _ ih =>
    intro t ht
    rcases List.mem_cons.mp ht with rfl | ht
    · exact ⟨hne, fun c hc =>
        ⟨hrun c hc, List.mem_append_left _ (List.mem_append_right _ hc)⟩⟩
    · obtain ⟨h1, h2⟩ := ih t ht
      exact ⟨h1, fun c hc =>
        ⟨(h2 c hc).1, List.mem_append_right _ (List.mem_cons_of_mem _ (h2 c hc).2)⟩⟩

theorem cstr_of_nul_free (line : List Char) (h : NUL ∉ line) : cstr line = line := by
  unfold cstr
  rw [List.takeWhile_eq_self_iff]
  intro c hc
  have : c ≠ NUL := fun e => h (e ▸ hc)
  simpa using this

theorem argv_filled (ts : List CStr) (rest : List Cell) :
    argv (ts.map Cell.ptr ++ Cell.null :: rest) = ts := by
  induction ts with
  | nil => rfl
  | cons t ts ih =>
    rw [List.map_cons, List.cons_append]
    exact congrArg (fun l => t :: l) ih

theorem filled_nil_take (ts : List CStr) :
    (filled [] ts).take (ts.length + 1) = ts.map Cell.ptr ++ [Cell.null] := by
  have h : (ts.map Cell.ptr ++ [Cell.null]).length = ts.length + 1 := by simp
  obtain ⟨k, hk⟩ : ∃ k, filled [] ts
      = (ts.map Cell.ptr ++ [Cell.null]) ++ List.replicate k Cell.garbage :=
    ⟨LSH_TOK_BUFSIZE * (ts.length / LSH_TOK_BUFSIZE + 1) - ts.length - 1, by simp [filled]⟩
  rw [hk, ← h, List.take_left]

/-- Whatever the environment answers, `lsh_split_line` ends in one of three ways: it
returns the array filled with the tokens of the line, and then the token count fits
`int`; or it ends the process with the allocation diagnostic, an allocation having
failed; or `bufsize` would pass `INT_MAX`, and then the token count does not fit.  It
changes nothing of the world but the oracle clock. -/
theorem lsh_split_line_outcome (os : OS) (line : List Char) (w : World) :
    ∃ c, (lsh_split_line os line w
            = .ret ⟨filled [] (spec_tokens (cstr line)),
                LSH_TOK_BUFSIZE * ((spec_tokens (cstr line)).length / LSH_TOK_BUFSIZE + 1),
                (spec_tokens (cstr line)).length⟩ { w with clock := c }
          ∧ fits_int line)
      ∨ (lsh_split_line os line w
            = .exit EXIT_FAILURE
                (fprintf_stderr "lsh: allocation error\n" { w with clock := c })
          ∧ ∃ k, os.alloc k = false)
      ∨ (lsh_split_line os line w = .fault .intOverflow { w with clock := c }
          ∧ ¬ fits_int line) := by
  rw [lsh_split_line_eq]
  by_cases ha : os.alloc w.clock = true
  · rw [if_pos ha]
    obtain ⟨c, hc⟩ := store_all_cases os (spec_tokens (cstr line)) [] LSH_TOK_BUFSIZE 0
      (tick w) rfl (by simp [LSH_TOK_BUFSIZE]) (by decide)
    refine ⟨c, ?_⟩
    simp only [List.nil_append, Nat.sub_zero, Nat.zero_add, tick] at hc
    rcases hc with ⟨h1, h2⟩ | ⟨h1, h2⟩ | ⟨h1, h2⟩
    · exact Or.inl ⟨h1, h2⟩
    · exact Or.inr (Or.inl ⟨h1, h2⟩)
    · exact Or.inr (Or.inr ⟨h1, Nat.not_le.mpr h2⟩)
  · rw [if_neg ha]
    exact ⟨w.clock + 1, Or.inr (Or.inl ⟨rfl, w.clock, by simpa using ha⟩)⟩

/-- When every allocation succeeds and the token count fits `int`, `lsh_split_line`
returns the array filled with the tokens of the C string of the line. -/
theorem lsh_split_line_ok (os : OS) (halloc : ∀ k, os.alloc k = true) (line : List Char)
    (hfit : fits_int line) (w : World) :
    ∃ c, lsh_split_line os line w
      = .ret ⟨filled [] (spec_tokens (cstr line)),
          LSH_TOK_BUFSIZE * ((spec_tokens (cstr line)).length / LSH_TOK_BUFSIZE + 1),
          (spec_tokens (cstr line)).length⟩ { w with clock := c } := by
  obtain ⟨c, ⟨h, _⟩ | ⟨_, k, hk⟩ | ⟨_, h⟩⟩ := lsh_split_line_outcome os line w
  · exact ⟨c, h⟩
  · rw [halloc k] at hk
    exact Bool.noConfusion hk
  · exact absurd hfit h

/-- When every allocation succeeds and the token count does not fit `int`,
`lsh_split_line` runs into the overflow of `bufsize`. -/
theorem lsh_split_line_overflow (os : OS) (halloc : ∀ k, os.alloc k = true)
    (line : List Char) (hfit : ¬ fits_int line) (w : World) :
    ∃ c, lsh_split_line os line w = .fault .intOverflow { w with clock := c } := by
  obtain ⟨c, ⟨_, h⟩ | ⟨_, k, hk⟩ | ⟨h, _⟩⟩ := lsh_split_line_outcome os line w
  · exact absurd h hfit
  · rw [halloc k] at hk
    exact Bool.noConfusion hk
  · exact ⟨c, h⟩

/-- When `lsh_split_line` returns, the token sequence of the array it returns is the
list of tokens of the C string of the line. -/
theorem lsh_split_line_ret (os : OS) (line : List Char) (w : World) (buf : TokBuf)
    (w1 : World) (h : lsh_split_line os line w = .ret buf w1) :
    argv buf.tokens = spec_tokens (cstr line) := by
  obtain ⟨c, ⟨hc, _⟩ | ⟨hc, _⟩ | ⟨hc, _⟩⟩ := lsh_split_line_outcome os line w
  · rw [hc] at h
    injection h with h1 _
    rw [← h1]
    exact argv_filled _ _
  · rw [hc] at h
    exact Res.noConfusion h
  · rw [hc] at h
    exact Res.noConfusion h

/-- The world in which `lsh_split_line` ends: the one it started in, up to the oracle
clock, with the allocation diagnostic added when an allocation failed. -/
theorem lsh_split_line_world (os : OS) (line : List Char) (w : World) :
    ∃ c, (lsh_split_line os line w).world = { w with clock := c }
      ∨ (lsh_split_line os line w).world
          = fprintf_stderr "lsh: allocation error\n" { w with clock := c } := by
  obtain ⟨c, ⟨hc, _⟩ | ⟨hc, _⟩ | ⟨hc, _⟩⟩ := lsh_split_line_outcome os line w
  · exact ⟨c, Or.inl (by rw [hc]; rfl)⟩
  · exact ⟨c, Or.inr (by rw [hc]; rfl)⟩
  · exact ⟨c, Or.inl (by rw [hc]; rfl)⟩

/-! ## C1: what the tokenizer returns -/

theorem line_of_tokens_succ (k : Nat) :
    line_of_tokens (k + 1) = 'a' :: ' ' :: line_of_tokens k := by
  simp [line_of_tokens, List.replicate_succ]

theorem spec_tokens_line_of_tokens (k : Nat) :
    spec_tokens (line_of_tokens k) = List.replicate k ['a'] := by
  induction k with
  | zero => rfl
  | succ k ih =>
    rw [line_of_tokens_succ, List.replicate_succ]
    have h := spec_tokens_run_sep ['a'] ' ' (line_of_tokens k) (by simp) (by decide) (by decide)
    simp only [List.singleton_append] at h
    rw [h, ih]

theorem line_of_tokens_nul_free (k : Nat) : NUL ∉ line_of_tokens k := by
  induction k with
  | zero => simp [line_of_tokens]
  | succ k ih =>
    rw [line_of_tokens_succ]
    intro h
    rcases List.mem_cons.mp h with h1 | h1
    · exact absurd h1 (by decide)
    · rcases List.mem_cons.mp h1 with h2 | h2
      · exact absurd h2 (by decide)
      · exact ih h2

theorem tokens_line_of_tokens (k : Nat) :
    (spec_tokens (cstr (line_of_tokens k))).length = k := by
  rw [cstr_of_nul_free _ (line_of_tokens_nul_free k), spec_tokens_line_of_tokens,
    List.length_replicate]

theorem not_fits_line_of_tokens (k : Nat) (h : INT_MAX < k + LSH_TOK_BUFSIZE) :
    ¬ fits_int (line_of_tokens k) := by
  unfold fits_int
  rw [tokens_line_of_tokens]
  exact Nat.not_le.mpr h

/-- C1 fails as stated at the line of `2^31 - 64` tokens `a`, each followed by a space:
the line is NUL-free and every allocation succeeds, yet the call does not return the
token list; after the token number `2^31 - 64` it runs into `bufsize += 64` at
`bufsize = 2^31 - 64`, which passes `INT_MAX`. -/
theorem lsh_split_line_tokens_counterexample :
    NUL ∉ line_of_tokens 2147483584 ∧ (∀ k, os_plain.alloc k = true)
      ∧ (spec_tokens (line_of_tokens 2147483584)).length = 2147483584
      ∧ (lsh_split_line os_plain (line_of_tokens 2147483584) (world_start "")).fault_kind
          = some Fault.intOverflow
      ∧ returned_tokens (lsh_split_line os_plain (line_of_tokens 2147483584) (world_start ""))
          = none := by
  obtain ⟨c, hc⟩ := lsh_split_line_overflow os_plain (fun _ => rfl) (line_of_tokens 2147483584)
    (not_fits_line_of_tokens 2147483584 (by decide)) (world_start "")
  refine ⟨line_of_tokens_nul_free _, fun _ => rfl, ?_, ?_, ?_⟩
  · rw [spec_tokens_line_of_tokens, List.length_replicate]
  · rw [hc]; rfl
  · rw [hc]; rfl

/-- C1 as amended: for every NUL-free line with fewer than `2^31 - 64` tokens (so that
`bufsize` stays within `int`), `lsh_split_line` returns (changing nothing of the world
but the oracle clock) an array that holds, in order, a pointer to each maximal
non-empty run of non-delimiter characters of the line and then the end marker `NULL`
at index = number of tokens, so that the token sequence read from the array is exactly
that list: it does so when the allocations succeed, and whatever the allocator answers
it either returns exactly this or ends the process with the allocation diagnostic.
The list is the unique list of runs of the line; no token is empty or contains a
delimiter; a line of delimiters alone (an empty line too) gives no token, with the end
marker at index 0; and the line made of `a`, two spaces, `b`, a tab and `c` gives
exactly the tokens `a`, `b`, `c`. -/
theorem lsh_split_line_tokens (os : OS) (w : World) (line : List Char)
    (hnul : NUL ∉ line) (hfit : (spec_tokens line).length + LSH_TOK_BUFSIZE ≤ INT_MAX) :
    ((∀ k, os.alloc k = true) →
        ∃ c, lsh_split_line os line w
          = .ret ⟨filled [] (spec_tokens line),
              LSH_TOK_BUFSIZE * ((spec_tokens line).length / LSH_TOK_BUFSIZE + 1),
              (spec_tokens line).length⟩ { w with clock := c })
      ∧ (∃ c, lsh_split_line os line w
            = .ret ⟨filled [] (spec_tokens line),
                LSH_TOK_BUFSIZE * ((spec_tokens line).length / LSH_TOK_BUFSIZE + 1),
                (spec_tokens line).length⟩ { w with clock := c }
          ∨ lsh_split_line os line w
            = .exit EXIT_FAILURE
                (fprintf_stderr "lsh: allocation error\n" { w with clock := c }))
      ∧ argv (filled [] (spec_tokens line)) = spec_tokens line
      ∧ (filled [] (spec_tokens line)).take ((spec_tokens line).length + 1)
          = (spec_tokens line).map Cell.ptr ++ [Cell.null]
      ∧ Runs line (spec_tokens line)
      ∧ (∀ ts, Runs line ts → ts = spec_tokens line)
      ∧ (∀ t ∈ spec_tokens line, t ≠ [] ∧ ∀ c ∈ t, isDelim c = false)
      ∧ ((∀ c ∈ line, isDelim c = true) →
          spec_tokens line = [] ∧ (filled [] (spec_tokens line))[0]? = some Cell.null)
      ∧ (line = "a  b\tc".toList → spec_tokens line = ["a".toList, "b".toList, "c".toList]) := by
  have hfit2 : fits_int line := by
    unfold fits_int
    rw [cstr_of_nul_free line hnul]
    exact hfit
  refine ⟨fun halloc => ?_, ?_, argv_filled _ _, filled_nil_take _, runs_spec_tokens line,
    fun ts h => h.unique.symm, fun t ht => ?_, fun h => ?_, fun h => ?_⟩
  · have h := lsh_split_line_ok os halloc line hfit2 w
    rwa [cstr_of_nul_free line hnul] at h
  · obtain ⟨c, ⟨h, _⟩ | ⟨h, _⟩ | ⟨_, h⟩⟩ := lsh_split_line_outcome os line w
    · rw [cstr_of_nul_free line hnul] at h
      exact ⟨c, Or.inl h⟩
    · exact ⟨c, Or.inr h⟩
    · exact absurd hfit2 h
  · obtain ⟨h1, h2⟩ := (runs_spec_tokens line).mem t ht
    exact ⟨h1, fun c hc => (h2 c hc).1⟩
  · rw [spec_tokens_of_all_delim line h]
    exact ⟨rfl, rfl⟩
  · subst h
    decide

/-- C1 as amended, at the line `a  b<tab>c` of the specification (three tokens, end
marker at index 3), at the empty line and at a line of delimiters alone (no token). -/
theorem lsh_split_line_tokens_witness :
    NUL ∉ "a  b\tc".toList
      ∧ (spec_tokens "a  b\tc".toList).length + LSH_TOK_BUFSIZE ≤ INT_MAX
      ∧ (∀ k, os_plain.alloc k = true)
      ∧ argv (filled [] (spec_tokens "a  b\tc".toList))
          = ["a".toList, "b".toList, "c".toList]
      ∧ (filled [] (spec_tokens "a  b\tc".toList))[3]? = some Cell.null
      ∧ returned_tokens (lsh_split_line os_plain "a  b\tc".toList (world_start ""))
          = some ["a".toList, "b".toList, "c".toList]
      ∧ returned_tokens (lsh_split_line os_plain [] (world_start "")) = some []
      ∧ returned_tokens (lsh_split_line os_plain " \t\r\n".toList (world_start "")) = some [] :=
  ⟨by decide, by decide, fun _ => rfl,
    ((lsh_split_line_tokens os_plain (world_start "") "a  b\tc".toList
      (by decide) (by decide)).2.2.1).trans (by decide), by decide, by decide, by decide,
    by decide⟩

/-! ## C8: the tokens do not depend on how many delimiters separate them -/

theorem splitOnP_append_sep {α : Type} (p : α → Bool) (a : List α) (sep : α) (b : List α)
    (hsep : p sep = true) :
    (a ++ sep :: b).splitOnP p = a.splitOnP p ++ b.splitOnP p := by
  induction a with
  | nil => simp [hsep]
  | cons c cs ih =>
    rw [List.cons_append, List.splitOnP_cons, List.splitOnP_cons, ih]
    by_cases hc : p c = true
    · simp [hc]
    · simp only [hc, if_false]
      cases h : List.splitOnP p cs with
      | nil => exact absurd h (List.splitOnP_ne_nil _ _)
      | cons x xs => rfl

theorem spec_tokens_append_sep (a : List Char) (sep : Char) (b : List Char)
    (hsep : isDelim sep = true) :
    spec_tokens (a ++ sep :: b) = spec_tokens a ++ spec_tokens b := by
  unfold spec_tokens
  rw [splitOnP_append_sep isDelim a sep b hsep, List.filter_append]

theorem spec_tokens_append_gap (a gap b : List Char) (hne : gap ≠ [])
    (hgap : ∀ c ∈ gap, isDelim c = true) :
    spec_tokens (a ++ gap ++ b) = spec_tokens a ++ spec_tokens b := by
  cases gap with
  | nil => exact absurd rfl hne
  | cons d ds =>
    rw [List.append_assoc, List.cons_append,
      spec_tokens_append_sep a d _ (hgap d (List.mem_cons_self _ _)),
      spec_tokens_gap_append ds b fun x hx => hgap x (List.mem_cons_of_mem _ hx)]

theorem spec_tokens_append_trailing (a gap : List Char)
    (hgap : ∀ c ∈ gap, isDelim c = true) : spec_tokens (a ++ gap) = spec_tokens a := by
  cases gap with
  | nil => rw [List.append_nil]
  | cons d ds =>
    have := spec_tokens_append_gap a (d :: ds) [] (by simp) hgap
    rwa [List.append_nil, spec_tokens_nil, List.append_nil] at this

theorem delim_ne_nul (c : Char) (h : isDelim c = true) : c ≠ NUL := by
  intro e
  subst e
  exact absurd h (by decide)

theorem cstr_append_of_mem (a b : List Char) (h : NUL ∈ a) : cstr (a ++ b) = cstr a := by
  induction a with
  | nil => simp at h
  | cons c cs ih =>
    by_cases hc : c = NUL
    · simp [cstr, List.takeWhile_cons, hc]
    · have hmem : NUL ∈ cs := by
        rcases List.mem_cons.mp h with e | e
        · exact absurd e.symm hc
        · exact e
      have := ih hmem
      unfold cstr at this ⊢
      simp only [List.cons_append, List.takeWhile_cons, this]

theorem cstr_append_of_not_mem (a b : List Char) (h : NUL ∉ a) :
    cstr (a ++ b) = a ++ cstr b := by
  unfold cstr
  rw [List.takeWhile_append_of_pos]
  intro c hc
  have : c ≠ NUL := fun e => h (e ▸ hc)
  simpa using this

theorem gap_nul_free (gap : List Char) (hgap : ∀ c ∈ gap, isDelim c = true) : NUL ∉ gap :=
  fun h => delim_ne_nul NUL (hgap NUL h) rfl

/-- Lines whose C strings have the same tokens are split alike, whatever the
environment answers. -/
theorem lsh_split_line_congr (os : OS) (w : World) (l1 l2 : List Char)
    (h : spec_tokens (cstr l1) = spec_tokens (cstr l2)) :
    lsh_split_line os l1 w = lsh_split_line os l2 w := by
  rw [lsh_split_line_eq, lsh_split_line_eq, h]

theorem spec_tokens_intercalate (ts : List CStr)
    (h : ∀ t ∈ ts, t ≠ [] ∧ ∀ c ∈ t, isDelim c = false) :
    spec_tokens ([' '].intercalate ts) = ts := by
  induction ts with
  | nil => rfl
  | cons t ts ih =>
    obtain ⟨hne, hrun⟩ := h t (List.mem_cons_self _ _)
    cases ts with
    | nil =>
      simpa [List.intercalate] using spec_tokens_run t hne hrun
    | cons t2 ts =>
      have e : [' '].intercalate (t :: t2 :: ts)
          = t ++ ' ' :: [' '].intercalate (t2 :: ts) := by
        simp [List.intercalate]
      rw [e, spec_tokens_run_sep t ' ' _ hne hrun (by decide),
        ih fun x hx => h x (List.mem_cons_of_mem _ hx)]

theorem intercalate_nul_free (ts : List CStr) (h : ∀ t ∈ ts, NUL ∉ t) :
    NUL ∉ [' '].intercalate ts := by
  induction ts with
  | nil => simp [List.intercalate]
  | cons t ts ih =>
    cases ts with
    | nil => simpa [List.intercalate] using h t (List.mem_cons_self _ _)
    | cons t2 ts =>
      have e : [' '].intercalate (t :: t2 :: ts)
          = t ++ ' ' :: [' '].intercalate (t2 :: ts) := by
        simp [List.intercalate]
      rw [e]
      intro hmem
      rcases List.mem_append.mp hmem with h1 | h1
      · exact h t (List.mem_cons_self _ _) h1
      · rcases List.mem_cons.mp h1 with h2 | h2
        · exact absurd h2 (by decide)
        · exact ih (fun x hx => h x (List.mem_cons_of_mem _ hx)) h2

theorem spec_tokens_cstr_nul_free (line : List Char) :
    ∀ t ∈ spec_tokens (cstr line), NUL ∉ t := by
  intro t ht hmem
  have h1 := ((runs_spec_tokens (cstr line)).mem t ht).2 NUL hmem
  have h2 : (NUL != NUL) = true :=
    @List.mem_takeWhile_imp _ (fun c => c != NUL) line NUL h1.2
  simp at h2

/-- C8: the result of `lsh_split_line` (the token array, hence the token sequence and
the number of tokens, and the effect on the world) is the same, whatever the
environment answers, when a non-empty run of delimiters of the line is replaced by
another non-empty run of delimiters, when delimiters are added or removed at the start
of the line, and when they are added or removed at its end; and splitting the
single-space join of the tokens returned for a line returns the same again. -/
theorem lsh_split_line_delimiter_invariant (os : OS) (w : World) :
    (∀ pre gap1 gap2 post : List Char, gap1 ≠ [] → gap2 ≠ [] →
        (∀ c ∈ gap1, isDelim c = true) → (∀ c ∈ gap2, isDelim c = true) →
        lsh_split_line os (pre ++ gap1 ++ post) w = lsh_split_line os (pre ++ gap2 ++ post) w)
      ∧ (∀ gap line : List Char, (∀ c ∈ gap, isDelim c = true) →
        lsh_split_line os (gap ++ line) w = lsh_split_line os line w)
      ∧ (∀ gap line : List Char, (∀ c ∈ gap, isDelim c = true) →
        lsh_split_line os (line ++ gap) w = lsh_split_line os line w)
      ∧ (∀ (line : List Char) (buf : TokBuf) (w1 : World),
        lsh_split_line os line w = .ret buf w1 →
        lsh_split_line os ([' '].intercalate (argv buf.tokens)) w = .ret buf w1) := by
  refine ⟨?_, ?_, ?_, ?_⟩
  · intro pre gap1 gap2 post hne1 hne2 hg1 hg2
    apply lsh_split_line_congr
    by_cases hp : NUL ∈ pre
    · rw [List.append_assoc, List.append_assoc, cstr_append_of_mem pre _ hp,
        cstr_append_of_mem pre _ hp]
    · rw [List.append_assoc, List.append_assoc, cstr_append_of_not_mem pre _ hp,
        cstr_append_of_not_mem pre _ hp, cstr_append_of_not_mem gap1 _ (gap_nul_free gap1 hg1),
        cstr_append_of_not_mem gap2 _ (gap_nul_free gap2 hg2), ← List.append_assoc,
        ← List.append_assoc, spec_tokens_append_gap pre gap1 _ hne1 hg1,
        spec_tokens_append_gap pre gap2 _ hne2 hg2]
  · intro gap line hg
    apply lsh_split_line_congr
    rw [cstr_append_of_not_mem gap _ (gap_nul_free gap hg), spec_tokens_gap_append gap _ hg]
  · intro gap line hg
    apply lsh_split_line_congr
    by_cases hl : NUL ∈ line
    · rw [cstr_append_of_mem line _ hl]
    · rw [cstr_append_of_not_mem line _ hl, cstr_of_nul_free gap (gap_nul_free gap hg),
        cstr_of_nul_free line hl, spec_tokens_append_trailing line gap hg]
  · intro line buf w1 h
    have htok : argv buf.tokens = spec_tokens (cstr line) :=
      lsh_split_line_ret os line w buf w1 h
    rw [← h, htok]
    apply lsh_split_line_congr
    rw [cstr_of_nul_free _ (intercalate_nul_free _ (spec_tokens_cstr_nul_free line)),
      spec_tokens_intercalate _ fun t ht =>
        ⟨((runs_spec_tokens (cstr line)).mem t ht).1,
          fun c hc => (((runs_spec_tokens (cstr line)).mem t ht).2 c hc).1⟩]

/-- C8, at `ls -l`: one space between the tokens, or a space, a tab and two spaces. -/
theorem lsh_split_line_delimiter_invariant_witness :
    " ".toList ≠ [] ∧ " \t  ".toList ≠ [] ∧ (∀ c ∈ " ".toList, isDelim c = true)
      ∧ (∀ c ∈ " \t  ".toList, isDelim c = true)
      ∧ lsh_split_line os_plain ("ls".toList ++ " ".toList ++ "-l\n".toList) (world_start "")
          = lsh_split_line os_plain ("ls".toList ++ " \t  ".toList ++ "-l\n".toList)
              (world_start "")
      ∧ returned_tokens (lsh_split_line os_plain "ls \t  -l\n".toList (world_start ""))
          = some ["ls".toList, "-l".toList] :=
  ⟨by decide, by decide, by decide, by decide,
    (lsh_split_line_delimiter_invariant os_plain (world_start "")).1 "ls".toList " ".toList
      " \t  ".toList "-l\n".toList (by decide) (by decide) (by decide) (by decide),
    by decide⟩

/-! ## C10: every store into the token buffer is in bounds -/

theorem length_realloc (a : List Cell) (n : Nat) : (realloc a n).length = n := by
  simp only [realloc, List.length_append, List.length_take, List.length_replicate]
  omega

theorem length_of_store {a b : List Cell} {i : Nat} {v : Cell} (h : store a i v = some b) :
    b.length = a.length := by
  unfold store at h
  split at h
  · injection h with h
    rw [← h, List.length_set]
  · exact Option.noConfusion h

theorem store_in_bounds (a : List Cell) (i : Nat) (v : Cell) (h : i < a.length) :
    ∃ b, store a i v = some b := ⟨a.set i v, by simp [store, h]⟩

/-- The loop invariant `position < bufsize = size of the array` is kept by every
iteration, whatever `strtok` and the allocator answer: from a state that satisfies it
the loop never stores outside the array. -/
theorem loop_in_bounds (os : OS) (fuel : Nat) :
    ∀ (tok : Option CStr) (save : CStr) (tokens : List Cell) (bufsize position : Nat)
      (w w1 : World), tokens.length = bufsize → position < bufsize →
      lsh_split_line.loop os fuel tok save tokens bufsize position w
        ≠ .fault .outOfBounds w1 := by
  induction fuel with
  | zero =>
    intro tok save tokens bufsize position w w1 _ _ h
    simp [lsh_split_line.loop] at h
  | succ fuel ih =>
    intro tok save tokens bufsize position w w1 hlen hlt
    cases tok with
    | none =>
      obtain ⟨b, hb⟩ := store_in_bounds tokens position Cell.null (by omega)
      simp [lsh_split_line.loop, hb]
    | some t =>
      obtain ⟨b, hb⟩ := store_in_bounds tokens position (Cell.ptr t) (by omega)
      have hbl : b.length = bufsize := by rw [length_of_store hb, hlen]
      simp only [lsh_split_line.loop, hb]
      by_cases hp : position + 1 > INT_MAX
      · rw [if_pos hp]
        exact fun h => by injection h with h1 _; exact Fault.noConfusion h1
      · rw [if_neg hp]
        by_cases hge : position + 1 ≥ bufsize
        · rw [if_pos hge]
          by_cases hov : bufsize + LSH_TOK_BUFSIZE > INT_MAX
          · rw [if_pos hov]
            exact fun h => by injection h with h1 _; exact Fault.noConfusion h1
          · rw [if_neg hov]
            by_cases ha : os.alloc w.clock = true
            · rw [if_pos ha]
              exact ih _ _ _ _ _ _ _ (length_realloc _ _)
                (by simp only [LSH_TOK_BUFSIZE]; omega)
            · rw [if_neg ha]
              exact fun h => Res.noConfusion h
        · rw [if_neg hge]
          exact ih _ _ _ _ _ _ _ hbl (by omega)

theorem length_filled_nil (ts : List CStr) :
    (filled [] ts).length = LSH_TOK_BUFSIZE * (ts.length / LSH_TOK_BUFSIZE + 1) := by
  simp only [filled, LSH_TOK_BUFSIZE, List.nil_append, List.length_append, List.length_map,
    List.length_cons, List.length_replicate, List.length_nil, Nat.zero_add]
  omega

/-- C10 fails as stated at the line of `n = 2^31 - 64` tokens, with every allocation
succeeding: the claimed final `bufsize = 64 * (n / 64 + 1)` is `2^31`, above `INT_MAX`;
the call does not return, it runs into `bufsize += 64` at `bufsize = 2^31 - 64`. -/
theorem lsh_split_line_in_bounds_counterexample :
    (∀ k, os_plain.alloc k = true)
      ∧ (spec_tokens (cstr (line_of_tokens 2147483584))).length = 2147483584
      ∧ INT_MAX < LSH_TOK_BUFSIZE * (2147483584 / LSH_TOK_BUFSIZE + 1)
      ∧ returned_counters (lsh_split_line os_plain (line_of_tokens 2147483584) (world_start ""))
          = none
      ∧ (lsh_split_line os_plain (line_of_tokens 2147483584) (world_start "")).fault_kind
          = some Fault.intOverflow := by
  obtain ⟨c, hc⟩ := lsh_split_line_overflow os_plain (fun _ => rfl) (line_of_tokens 2147483584)
    (not_fits_line_of_tokens 2147483584 (by decide)) (world_start "")
  refine ⟨fun _ => rfl, tokens_line_of_tokens _, by decide, ?_, ?_⟩
  · rw [hc]; rfl
  · rw [hc]; rfl

/-- C10 as amended: for every line whose number of tokens `n` is below `2^31 - 64`
(`n + 64 <= INT_MAX`), when the allocations succeed `lsh_split_line` returns with
`position = n` and `bufsize = 64 * (n / 64 + 1)`, which is within `int`; the array has
`bufsize` cells and `n < bufsize`, so the end marker has its cell also when `n` is 64,
128, ...; the buffer starts with 64 cells and `0 < 64`; from every state with
`position < bufsize = size of the array` the loop stores only inside the array (a
store outside would end in the out-of-bounds fault), whatever the environment answers,
and so no call of `lsh_split_line` ends in that fault. -/
theorem lsh_split_line_in_bounds (os : OS) (w : World) (line : List Char)
    (halloc : ∀ k, os.alloc k = true)
    (hfit : (spec_tokens (cstr line)).length + LSH_TOK_BUFSIZE ≤ INT_MAX) :
    (∃ tokens w1, lsh_split_line os line w
          = .ret ⟨tokens, LSH_TOK_BUFSIZE * ((spec_tokens (cstr line)).length / LSH_TOK_BUFSIZE + 1),
              (spec_tokens (cstr line)).length⟩ w1
        ∧ tokens.length
            = LSH_TOK_BUFSIZE * ((spec_tokens (cstr line)).length / LSH_TOK_BUFSIZE + 1)
        ∧ tokens[(spec_tokens (cstr line)).length]? = some Cell.null)
      ∧ (spec_tokens (cstr line)).length
          < LSH_TOK_BUFSIZE * ((spec_tokens (cstr line)).length / LSH_TOK_BUFSIZE + 1)
      ∧ LSH_TOK_BUFSIZE * ((spec_tokens (cstr line)).length / LSH_TOK_BUFSIZE + 1) ≤ INT_MAX
      ∧ (malloc LSH_TOK_BUFSIZE).length = 64 ∧ LSH_TOK_BUFSIZE = 64
      ∧ (∀ (env : OS) (fuel : Nat) (tok : Option CStr) (save : CStr) (tokens : List Cell)
          (bufsize position : Nat) (v v1 : World),
          tokens.length = bufsize → position < bufsize →
          lsh_split_line.loop env fuel tok save tokens bufsize position v
            ≠ .fault .outOfBounds v1)
      ∧ (∀ (env : OS) (v v1 : World), lsh_split_line env line v ≠ .fault .outOfBounds v1) := by
  obtain ⟨c, hc⟩ := lsh_split_line_ok os halloc line hfit w
  refine ⟨⟨_, _, hc, length_filled_nil _, ?_⟩, ?_, ?_, rfl, rfl,
    fun env fuel => loop_in_bounds env fuel, ?_⟩
  · have h := filled_nil_take (spec_tokens (cstr line))
    have h2 := congrArg (fun l => l[(spec_tokens (cstr line)).length]?) h
    simp only [List.getElem?_take, Nat.lt_succ_self, if_true] at h2
    rw [h2]
    simp
  · simp only [LSH_TOK_BUFSIZE]
    omega
  · simp only [LSH_TOK_BUFSIZE, INT_MAX] at hfit ⊢
    omega
  · intro env v v1
    unfold lsh_split_line
    by_cases ha : env.alloc v.clock = true
    · simp only [ha, if_true]
      exact loop_in_bounds env _ _ _ _ _ _ _ _ (by simp [malloc]) (by simp [LSH_TOK_BUFSIZE])
    · simp only [ha]
      exact fun h => Res.noConfusion h

set_option maxRecDepth 100000

/-- C10 as amended, at a line of exactly 64 tokens: the buffer has grown to 128 cells
and the end marker is stored at index 64. -/
theorem lsh_split_line_in_bounds_witness :
    (∀ k, os_plain.alloc k = true)
      ∧ (spec_tokens (cstr (line_of_tokens 64))).length + LSH_TOK_BUFSIZE ≤ INT_MAX
      ∧ (spec_tokens (cstr (line_of_tokens 64))).length = 64
      ∧ returned_counters (lsh_split_line os_plain (line_of_tokens 64) (world_start ""))
          = some (64, 128)
      ∧ (∃ tokens w1, lsh_split_line os_plain (line_of_tokens 64) (world_start "")
          = .ret ⟨tokens,
              LSH_TOK_BUFSIZE *
                ((spec_tokens (cstr (line_of_tokens 64))).length / LSH_TOK_BUFSIZE + 1),
              (spec_tokens (cstr (line_of_tokens 64))).length⟩ w1
        ∧ tokens.length = LSH_TOK_BUFSIZE *
            ((spec_tokens (cstr (line_of_tokens 64))).length / LSH_TOK_BUFSIZE + 1)
        ∧ tokens[(spec_tokens (cstr (line_of_tokens 64))).length]? = some Cell.null) :=
  ⟨fun _ => rfl, by decide, by decide, by decide,
    (lsh_split_line_in_bounds os_plain (world_start "") (line_of_tokens 64) (fun _ => rfl)
      (by decide)).1⟩

/-! ## C2: dispatch -/

theorem strcmp_eq_zero (a b : CStr) : (strcmp a b == 0) = decide (a = b) := by
  unfold strcmp
  by_cases h : a = b
  · simp [h]
  · by_cases h2 : a < b <;> simp [h, h2]

theorem lsh_execute_cons (os : OS) (name : CStr) (rest : List CStr) (w : World) :
    lsh_execute os (name :: rest) w =
      if name = "cd".toList then lsh_cd os (name :: rest) w
      else if name = "help".toList then lsh_help os (name :: rest) w
      else if name = "exit".toList then lsh_exit os (name :: rest) w
      else lsh_launch os (name :: rest) w := by
  have hr : List.range lsh_num_builtins = [0, 1, 2] := by decide
  have e1 : "cd".toList = ['c', 'd'] := by decide
  have e2 : "help".toList = ['h', 'e', 'l', 'p'] := by decide
  have e3 : "exit".toList = ['e', 'x', 'i', 't'] := by decide
  simp only [lsh_execute, List.getElem?_cons_zero, hr, strcmp_eq_zero, List.find?_cons,
    builtin_str, e1, e2, e3]
  by_cases h1 : name = ['c', 'd']
  · simp [h1, builtin_func]
  · by_cases h2 : name = ['h', 'e', 'l', 'p']
    · simp [h1, h2, builtin_func]
    · by_cases h3 : name = ['e', 'x', 'i', 't']
      · simp [h1, h2, h3, builtin_func]
      · simp [h1, h2, h3, builtin_func]

/-- C2: `lsh_execute` on the empty token sequence returns 1 ("continue") and leaves
the world as it was (no output, no call); on a sequence that starts with `name` it
looks `name` up among `cd`, `help`, `exit` in this order, by exact, case-sensitive
comparison of the whole name, and returns what the handler of the first match returns
on the full sequence; with no match it returns what `lsh_launch` returns on the full
sequence.  So `Exit`, `cdx` and `c` go to `lsh_launch`.  The
names are registered in the order `cd`, `help`, `exit` and are distinct. -/
theorem lsh_execute_dispatch (os : OS) (w : World) (name : CStr) (rest : List CStr) :
    lsh_execute os [] w = .ret 1 w
      ∧ (lsh_execute os (name :: rest) w =
          if name = "cd".toList then lsh_cd os (name :: rest) w
          else if name = "help".toList then lsh_help os (name :: rest) w
          else if name = "exit".toList then lsh_exit os (name :: rest) w
          else lsh_launch os (name :: rest) w)
      ∧ lsh_execute os ("cd".toList :: rest) w = lsh_cd os ("cd".toList :: rest) w
      ∧ lsh_execute os ("help".toList :: rest) w = lsh_help os ("help".toList :: rest) w
      ∧ lsh_execute os ("exit".toList :: rest) w = lsh_exit os ("exit".toList :: rest) w
      ∧ lsh_execute os ("Exit".toList :: rest) w = lsh_launch os ("Exit".toList :: rest) w
      ∧ lsh_execute os ("cdx".toList :: rest) w = lsh_launch os ("cdx".toList :: rest) w
      ∧ lsh_execute os ("c".toList :: rest) w = lsh_launch os ("c".toList :: rest) w
      ∧ (name ∉ builtin_str →
          lsh_execute os (name :: rest) w = lsh_launch os (name :: rest) w)
      ∧ builtin_str = ["cd".toList, "help".toList, "exit".toList]
      ∧ builtin_str.Nodup ∧ builtin_func.length = builtin_str.length := by
  refine ⟨rfl, lsh_execute_cons os name rest w, ?_, ?_, ?_, ?_, ?_, ?_, ?_, rfl, by decide, rfl⟩
  · rw [lsh_execute_cons, if_pos rfl]
  · rw [lsh_execute_cons, if_neg (by decide), if_pos rfl]
  · rw [lsh_execute_cons, if_neg (by decide), if_neg (by decide), if_pos rfl]
  · rw [lsh_execute_cons, if_neg (by decide), if_neg (by decide), if_neg (by decide)]
  · rw [lsh_execute_cons, if_neg (by decide), if_neg (by decide), if_neg (by decide)]
  · rw [lsh_execute_cons, if_neg (by decide), if_neg (by decide), if_neg (by decide)]
  · intro h
    have h1 : name ≠ "cd".toList := fun e => h (e ▸ by decide)
    have h2 : name ≠ "help".toList := fun e => h (e ▸ by decide)
    have h3 : name ≠ "exit".toList := fun e => h (e ▸ by decide)
    rw [lsh_execute_cons, if_neg h1, if_neg h2, if_neg h3]

/-- C2, at a name that is no builtin: `ls -l` goes to the launcher. -/
theorem lsh_execute_dispatch_witness :
    "ls".toList ∉ builtin_str
      ∧ lsh_execute os_plain ["ls".toList, "-l".toList] (world_start "")
          = lsh_launch os_plain ["ls".toList, "-l".toList] (world_start "") :=
  ⟨by decide,
    (lsh_execute_dispatch os_plain (world_start "") "ls".toList ["-l".toList]).2.2.2.2.2.2.2.2.1
      (by decide)⟩

/-! ## C3 and C4: the launcher -/

theorem wait_spec (pid : Int) (sts : List WStatus) :
    ∀ w : World, lsh_launch.wait pid sts w =
      match sts.dropWhile (fun st => !terminal st) with
      | [] => .hang (after (wait_events pid sts) w)
      | fin :: _ =>
        .ret () (after (wait_events pid (sts.takeWhile (fun st => !terminal st) ++ [fin])) w) := by
  induction sts with
  | nil => intro w; simp [lsh_launch.wait, wait_events, after]
  | cons st sts ih =>
    intro w
    by_cases ht : terminal st = true
    · have hc : (!WIFEXITED st && !WIFSIGNALED st) = false := by
        simp only [terminal] at ht
        cases h1 : WIFEXITED st <;> cases h2 : WIFSIGNALED st <;> simp_all
      simp [lsh_launch.wait, hc, ht, List.dropWhile_cons, List.takeWhile_cons, wait_events,
        waitpid, emit, after]
    · have hc : (!WIFEXITED st && !WIFSIGNALED st) = true := by
        simp only [terminal] at ht
        cases h1 : WIFEXITED st <;> cases h2 : WIFSIGNALED st <;> simp_all
      simp only [lsh_launch.wait, hc, if_true, ih]
      simp only [List.dropWhile_cons, List.takeWhile_cons, ht, Bool.not_false, if_true,
        Bool.false_eq_true, if_false]
      cases sts.dropWhile (fun st => !terminal st) with
      | nil => simp [wait_events, waitpid, emit, after]
      | cons fin rest => simp [wait_events, waitpid, emit, after]

theorem lsh_launch_parent (os : OS) (args : List CStr) (w : World)
    (hpid : 0 < (os.fork w.clock).pid) :
    lsh_launch os args w =
      match (os.fork w.clock).statuses.dropWhile (fun st => !terminal st) with
      | [] => .hang (after (wait_events (os.fork w.clock).pid (os.fork w.clock).statuses)
          (after [.fork (os.fork w.clock).pid] (tick w)))
      | fin :: _ =>
        .ret 1 (after (wait_events (os.fork w.clock).pid
            ((os.fork w.clock).statuses.takeWhile (fun st => !terminal st) ++ [fin]))
          (after [.fork (os.fork w.clock).pid] (tick w))) := by
  have h0 : ¬ (os.fork w.clock).pid = 0 := by omega
  have h1 : ¬ (os.fork w.clock).pid < 0 := by omega
  simp only [lsh_launch, fork, h0, h1, if_false, wait_spec]
  cases (os.fork w.clock).statuses.dropWhile (fun st => !terminal st) with
  | nil => rfl
  | cons fin rest => rfl

theorem lsh_launch_fork_failed (os : OS) (args : List CStr) (w : World)
    (hpid : (os.fork w.clock).pid < 0) :
    lsh_launch os args w =
      .ret 1 (after [.fork (os.fork w.clock).pid,
          .stderr ("lsh: ".toList ++ (os.fork w.clock).errno ++ "\n".toList)]
        { tick w with errno := (os.fork w.clock).errno }) := by
  have h0 : ¬ (os.fork w.clock).pid = 0 := by omega
  simp [lsh_launch, fork, h0, hpid, perror, emit, after, tick]

theorem lsh_launch_child (os : OS) (args : List CStr) (w : World)
    (hpid : (os.fork w.clock).pid = 0) :
    lsh_launch os args w =
      match os.execvp (w.clock + 1) (args.headD []) args with
      | none => .exec (after [.fork 0, .execvp (args.headD []) args] (tick (tick w)))
      | some e =>
        .exit EXIT_FAILURE (after [.fork 0, .execvp (args.headD []) args,
            .stderr ("lsh: ".toList ++ e ++ "\n".toList)]
          { tick (tick w) with errno := e }) := by
  simp only [lsh_launch, fork, hpid, if_true, lt_self_iff_false, if_false, emit, tick]
  cases h : os.execvp (w.clock + 1) (args.headD []) args with
  | none => simp [after]
  | some e => simp [after, perror, emit]

/-- C3: `lsh_launch` returns 1 ("continue") whenever it returns.  When `fork` fails it
returns 1 after the `fork` and one diagnostic on standard error, with no `waitpid`.
In the parent, when the child reports statuses that are neither exit nor death by a
signal and then one that is (any exit code, any signal), it returns 1 after exactly
these `waitpid` calls; the status never changes the value returned.  In the child
branch it never returns: the image is replaced, or the failure is reported on standard
error and the child exits with `EXIT_FAILURE`. -/
theorem lsh_launch_returns_continue (os : OS) (args : List CStr) (w : World) :
    (∀ v w1, lsh_launch os args w = .ret v w1 → v = 1)
      ∧ ((os.fork w.clock).pid < 0 →
          lsh_launch os args w =
            .ret 1 (after [.fork (os.fork w.clock).pid,
                .stderr ("lsh: ".toList ++ (os.fork w.clock).errno ++ "\n".toList)]
              { tick w with errno := (os.fork w.clock).errno }))
      ∧ (∀ (stops : List WStatus) (fin : WStatus) (more : List WStatus),
          0 < (os.fork w.clock).pid →
          (os.fork w.clock).statuses = stops ++ fin :: more →
          (∀ st ∈ stops, WIFEXITED st = false ∧ WIFSIGNALED st = false) →
          (WIFEXITED fin = true ∨ WIFSIGNALED fin = true) →
          lsh_launch os args w =
            .ret 1 (after (.fork (os.fork w.clock).pid ::
                wait_events (os.fork w.clock).pid (stops ++ [fin])) (tick w)))
      ∧ (∀ code sig, WIFEXITED (.exited code) = true ∧ WIFSIGNALED (.signaled sig) = true)
      ∧ ((os.fork w.clock).pid = 0 →
          (∀ v w1, lsh_launch os args w ≠ .ret v w1)
          ∧ (∀ e, os.execvp (w.clock + 1) (args.headD []) args = some e →
              lsh_launch os args w =
                .exit EXIT_FAILURE (after [.fork 0, .execvp (args.headD []) args,
                    .stderr ("lsh: ".toList ++ e ++ "\n".toList)]
                  { tick (tick w) with errno := e }))) := by
  refine ⟨?_, lsh_launch_fork_failed os args w, ?_, fun _ _ => ⟨rfl, rfl⟩, ?_⟩
  · intro v w1 h
    rcases lt_trichotomy (os.fork w.clock).pid 0 with hp | hp | hp
    · rw [lsh_launch_fork_failed os args w hp] at h
      injection h with h1 _
      exact h1.symm
    · rw [lsh_launch_child os args w hp] at h
      cases he : os.execvp (w.clock + 1) (args.headD []) args with
      | none => rw [he] at h; exact Res.noConfusion h
      | some e => rw [he] at h; exact Res.noConfusion h
    · rw [lsh_launch_parent os args w hp] at h
      cases hd : (os.fork w.clock).statuses.dropWhile (fun st => !terminal st) with
      | nil => rw [hd] at h; exact Res.noConfusion h
      | cons fin rest =>
        rw [hd] at h
        injection h with h1 _
        exact h1.symm
  · intro stops fin more hp hst hstops hfin
    have h1 : ∀ st ∈ stops, (!terminal st) = true := by
      intro st hmem
      simp [terminal, hstops st hmem]
    have h2 : (!terminal fin) = false := by
      rcases hfin with h | h <;> simp [terminal, h]
    rw [lsh_launch_parent os args w hp, hst, List.dropWhile_append_of_pos h1,
      List.takeWhile_append_of_pos h1, List.dropWhile_cons, List.takeWhile_cons]
    simp only [h2, Bool.false_eq_true, if_false, List.append_nil]
    simp [after]
  · intro hp
    refine ⟨fun v w1 h => ?_, fun e he => ?_⟩
    · rw [lsh_launch_child os args w hp] at h
      cases he : os.execvp (w.clock + 1) (args.headD []) args with
      | none => rw [he] at h; exact Res.noConfusion h
      | some e => rw [he] at h; exact Res.noConfusion h
    · rw [lsh_launch_child os args w hp, he]

/-- C3, when `fork` fails, and when the child is stopped once and then killed by
signal 9: the launcher returns 1 both times. -/
theorem lsh_launch_returns_continue_witness :
    (os_plain.fork (world_start "").clock).pid < 0
      ∧ lsh_launch os_plain ["ls".toList] (world_start "") =
          .ret 1 ⟨1, "Resource temporarily unavailable".toList, "/".toList, [],
            [.fork (-1), .stderr "lsh: Resource temporarily unavailable\n".toList]⟩
      ∧ lsh_launch (os_child [.stopped 19, .signaled 9]) ["ls".toList] (world_start "") =
          .ret 1 ⟨1, [], "/".toList, [],
            [.fork 42, .waitpid 42 WUNTRACED (.stopped 19),
              .waitpid 42 WUNTRACED (.signaled 9)]⟩ :=
  ⟨by decide,
    ((lsh_launch_returns_continue os_plain ["ls".toList] (world_start "")).2.1
      (by decide)).trans (by decide),
    by decide⟩

/-- C4: in the parent, after a successful `fork`, `lsh_launch` calls `waitpid` on the
pid of this child, with `WUNTRACED`, once for each status reported up to and including
the first that is an exit or a death by signal, and returns just after that one; it
does not return after a status that is neither (a stop is such a status); if the child
never reports an exit or a death by signal, it never returns. -/
theorem lsh_launch_wait_loop (os : OS) (args : List CStr) (w : World)
    (hpid : 0 < (os.fork w.clock).pid) :
    (lsh_launch os args w =
        match (os.fork w.clock).statuses.dropWhile (fun st => !terminal st) with
        | [] => .hang (after (wait_events (os.fork w.clock).pid (os.fork w.clock).statuses)
            (after [.fork (os.fork w.clock).pid] (tick w)))
        | fin :: _ =>
          .ret 1 (after (wait_events (os.fork w.clock).pid
              ((os.fork w.clock).statuses.takeWhile (fun st => !terminal st) ++ [fin]))
            (after [.fork (os.fork w.clock).pid] (tick w))))
      ∧ (∀ st ∈ (os.fork w.clock).statuses.takeWhile (fun st => !terminal st),
          WIFEXITED st = false ∧ WIFSIGNALED st = false)
      ∧ (∀ fin rest, (os.fork w.clock).statuses.dropWhile (fun st => !terminal st) = fin :: rest →
          WIFEXITED fin = true ∨ WIFSIGNALED fin = true)
      ∧ (∀ sts, ∀ e ∈ wait_events (os.fork w.clock).pid sts,
          ∃ st, e = .waitpid (os.fork w.clock).pid WUNTRACED st)
      ∧ (∀ sts, (wait_events (os.fork w.clock).pid sts).length = sts.length)
      ∧ (∀ sig, terminal (.stopped sig) = false) ∧ terminal .continued = false
      ∧ (∀ st, terminal st = (WIFEXITED st || WIFSIGNALED st)) := by
  refine ⟨lsh_launch_parent os args w hpid, ?_, ?_, ?_, ?_, fun _ => rfl, rfl, fun _ => rfl⟩
  · intro st hst
    have h : (!terminal st) = true :=
      @List.mem_takeWhile_imp _ (fun st => !terminal st) _ st hst
    simp only [terminal, Bool.not_eq_true', Bool.or_eq_false_iff] at h
    exact h
  · intro fin rest h
    have h1 := List.head?_dropWhile_not (fun st => !terminal st) (os.fork w.clock).statuses
    rw [h] at h1
    simp only [List.head?_cons, Option.all_some, Bool.not_not] at h1
    simp only [terminal] at h1
    cases h2 : WIFEXITED fin <;> cases h3 : WIFSIGNALED fin <;> simp_all
  · intro sts e he
    simp only [wait_events, List.mem_map] at he
    obtain ⟨st, _, rfl⟩ := he
    exact ⟨st, rfl⟩
  · intro sts
    simp [wait_events]

/-- C4, for a child that is stopped twice, exits with code 3, and would report more:
three `waitpid` calls, and the return comes after the third. -/
theorem lsh_launch_wait_loop_witness :
    0 < ((os_child [.stopped 19, .stopped 20, .exited 3, .exited 0]).fork
        (world_start "").clock).pid
      ∧ lsh_launch (os_child [.stopped 19, .stopped 20, .exited 3, .exited 0]) ["ls".toList]
          (world_start "") =
          .ret 1 ⟨1, [], "/".toList, [],
            [.fork 42, .waitpid 42 WUNTRACED (.stopped 19), .waitpid 42 WUNTRACED (.stopped 20),
              .waitpid 42 WUNTRACED (.exited 3)]⟩
      ∧ lsh_launch (os_child [.stopped 19, .stopped 20]) ["ls".toList] (world_start "") =
          .hang ⟨1, [], "/".toList, [],
            [.fork 42, .waitpid 42 WUNTRACED (.stopped 19),
              .waitpid 42 WUNTRACED (.stopped 20)]⟩ :=
  ⟨by decide,
    ((lsh_launch_wait_loop (os_child [.stopped 19, .stopped 20, .exited 3, .exited 0])
      ["ls".toList] (world_start "") (by decide)).1).trans (by decide),
    by decide⟩

/-! ## C5 and C6: the builtins `exit` and `cd` -/

/-- C5: on a token sequence whose first token is `exit`, whatever follows it,
`lsh_execute` returns 0 ("terminate") and leaves the world exactly as it was: nothing
is written, the working directory is the same, no call of the system is made.  The
handler `lsh_exit` does so on every token sequence. -/
theorem lsh_execute_exit (os : OS) (rest args : List CStr) (w : World) :
    lsh_execute os ("exit".toList :: rest) w = .ret 0 w
      ∧ lsh_exit os args w = .ret 0 w := by
  refine ⟨?_, rfl⟩
  rw [lsh_execute_cons, if_neg (by decide), if_neg (by decide), if_pos rfl]
  rfl

/-- C6: `lsh_cd` returns 1 ("continue") on every token sequence.  With no second
token it writes the usage diagnostic to standard error, does not call `chdir`, and the
working directory is unchanged.  With a second token it calls `chdir` on it (further
tokens are ignored): when that fails it writes `lsh: ` and the error text to standard
error and the working directory is unchanged; when that succeeds the working
directory becomes that path and nothing is written.  `lsh_execute` runs `lsh_cd` on
every sequence whose first token is `cd`. -/
theorem lsh_cd_effect (os : OS) (w : World) (args rest : List CStr) :
    (∃ w1, lsh_cd os args w = .ret 1 w1)
      ∧ lsh_execute os ("cd".toList :: rest) w = lsh_cd os ("cd".toList :: rest) w
      ∧ lsh_cd os ["cd".toList] w
          = .ret 1 (after [.stderr "lsh: expected argument to \"cd\"\n".toList] w)
      ∧ (lsh_cd os ["cd".toList] w).world.cwd = w.cwd
      ∧ (∀ (path : CStr) (more : List CStr) (e : Errno), os.chdir w.clock path = some e →
          lsh_cd os ("cd".toList :: path :: more) w
              = .ret 1 (after [.chdir path false,
                    .stderr ("lsh: ".toList ++ e ++ "\n".toList)] { tick w with errno := e })
            ∧ (lsh_cd os ("cd".toList :: path :: more) w).world.cwd = w.cwd)
      ∧ (∀ (path : CStr) (more : List CStr), os.chdir w.clock path = none →
          lsh_cd os ("cd".toList :: path :: more) w
              = .ret 1 (after [.chdir path true] { tick w with cwd := path })
            ∧ (lsh_cd os ("cd".toList :: path :: more) w).world.cwd = path
            ∧ stderr_of (lsh_cd os ("cd".toList :: path :: more) w).world.trace
                = stderr_of w.trace) := by
  have hfail : ∀ (path : CStr) (more : List CStr) (e : Errno), os.chdir w.clock path = some e →
      lsh_cd os ("cd".toList :: path :: more) w
        = .ret 1 (after [.chdir path false,
              .stderr ("lsh: ".toList ++ e ++ "\n".toList)] { tick w with errno := e }) := by
    intro path more e he
    simp [lsh_cd, chdir, he, perror, emit, after, tick]
  have hok : ∀ (path : CStr) (more : List CStr), os.chdir w.clock path = none →
      lsh_cd os ("cd".toList :: path :: more) w
        = .ret 1 (after [.chdir path true] { tick w with cwd := path }) := by
    intro path more he
    simp [lsh_cd, chdir, he, emit, after, tick]
  have hstderr : ∀ (es : List Event) (e : Event), (∀ s, e ≠ .stderr s) →
      stderr_of (es ++ [e]) = stderr_of es := by
    intro es e he
    induction es with
    | nil => cases e <;> simp_all [stderr_of]
    | cons x xs ih => cases x <;> simp_all [stderr_of]
  refine ⟨?_, ?_, rfl, rfl, fun path more e he => ?_, fun path more he => ?_⟩
  · unfold lsh_cd
    cases args[1]? with
    | none => exact ⟨_, rfl⟩
    | some path =>
      by_cases h : (chdir os path w).1 ≠ 0
      · exact ⟨_, if_pos h⟩
      · exact ⟨_, if_neg h⟩
  · rw [lsh_execute_cons, if_pos rfl]
  · rw [hfail path more e he]
    exact ⟨rfl, rfl⟩
  · rw [hok path more he]
    refine ⟨rfl, rfl, ?_⟩
    exact hstderr w.trace _ (fun s h => Event.noConfusion h)

/-- C6, with `/tmp` (the change succeeds) and with `/nowhere` (it fails). -/
theorem lsh_cd_effect_witness :
    os_plain.chdir (world_start "").clock "/tmp".toList = none
      ∧ os_plain.chdir (world_start "").clock "/nowhere".toList
          = some "No such file or directory".toList
      ∧ lsh_cd os_plain ["cd".toList, "/tmp".toList] (world_start "")
          = .ret 1 ⟨1, [], "/tmp".toList, [], [.chdir "/tmp".toList true]⟩
      ∧ lsh_cd os_plain ["cd".toList, "/nowhere".toList] (world_start "")
          = .ret 1 ⟨1, "No such file or directory".toList, "/".toList, [],
              [.chdir "/nowhere".toList false,
                .stderr "lsh: No such file or directory\n".toList]⟩ :=
  ⟨by decide, by decide,
    ((lsh_cd_effect os_plain (world_start "") [] []).2.2.2.2.2 "/tmp".toList []
      (by decide)).1.trans (by decide),
    by decide⟩

/-! ## The trace of a run -/

theorem Ext.refl (w : World) : Ext w w := ⟨rfl, [], by simp, by simp⟩

theorem Ext.trans {a b c : World} (h1 : Ext a b) (h2 : Ext b c) : Ext a c := by
  obtain ⟨s1, q1, t1, a1⟩ := h1
  obtain ⟨s2, q2, t2, a2⟩ := h2
  refine ⟨s2.trans s1, q1 ++ q2, by rw [t2, t1, List.append_assoc], ?_⟩
  intro e he
  rcases List.mem_append.mp he with h | h
  · exact a1 e h
  · exact a2 e h

theorem Ext.clock (w : World) (c : Nat) : Ext w { w with clock := c } :=
  ⟨rfl, [], by simp, by simp⟩

theorem Ext.after (w : World) (es : List Event) (h : ∀ e ∈ es, quiet e = true) :
    Ext w (after es w) := ⟨rfl, es, rfl, h⟩

theorem quiet_lsh (e : Errno) :
    quiet (.stderr ("lsh: ".toList ++ e ++ "\n".toList)) = true := rfl

theorem ext_split_line (os : OS) (line : List Char) (w : World) :
    Ext w (lsh_split_line os line w).world := by
  obtain ⟨c, h | h⟩ := lsh_split_line_world os line w
  · rw [h]; exact Ext.clock w c
  · rw [h]
    exact (Ext.clock w c).trans (Ext.after _ [_] (by decide))

theorem ext_cd (os : OS) (args : List CStr) (w : World) : Ext w (lsh_cd os args w).world := by
  unfold lsh_cd
  cases args[1]? with
  | none => exact Ext.after w [_] (by decide)
  | some path =>
    simp only [chdir]
    cases h : os.chdir w.clock path with
    | none => exact ⟨rfl, [_], rfl, by simp [quiet]⟩
    | some e =>
      refine ⟨rfl, [.chdir path false, .stderr ("lsh: ".toList ++ e ++ "\n".toList)], ?_, ?_⟩
      · simp [Res.world, perror, emit, tick]
      · intro x hx
        simp only [List.mem_cons, List.mem_singleton, List.not_mem_nil, or_false] at hx
        rcases hx with rfl | rfl
        · rfl
        · exact quiet_lsh e

theorem lsh_help_eq (os : OS) (args : List CStr) (w : World) :
    lsh_help os args w = .ret 1 (after help_events w) := by
  have hr : List.range lsh_num_builtins = [0, 1, 2] := by decide
  simp only [lsh_help, printf, emit, hr, List.foldl_cons, List.foldl_nil, List.append_assoc,
    after, help_events]
  rfl

theorem ext_help (os : OS) (args : List CStr) (w : World) :
    Ext w (lsh_help os args w).world := by
  rw [lsh_help_eq]
  exact Ext.after w help_events (by decide)

theorem quiet_wait_events (pid : Int) (sts : List WStatus) :
    ∀ e ∈ wait_events pid sts, quiet e = true := by
  intro e he
  simp only [wait_events, List.mem_map] at he
  obtain ⟨st, _, rfl⟩ := he
  rfl

theorem ext_launch (os : OS) (args : List CStr) (w : World) :
    Ext w (lsh_launch os args w).world := by
  rcases lt_trichotomy (os.fork w.clock).pid 0 with hp | hp | hp
  · rw [lsh_launch_fork_failed os args w hp]
    refine ⟨rfl, _, rfl, ?_⟩
    intro x hx
    simp only [List.mem_cons, List.mem_singleton, List.not_mem_nil, or_false] at hx
    rcases hx with rfl | rfl
    · rfl
    · exact quiet_lsh _
  · rw [lsh_launch_child os args w hp]
    cases os.execvp (w.clock + 1) (args.headD []) args with
    | none => exact ⟨rfl, _, rfl, by intro x hx; simp at hx; rcases hx with rfl | rfl <;> rfl⟩
    | some e =>
      refine ⟨rfl, _, rfl, ?_⟩
      intro x hx
      simp only [List.mem_cons, List.mem_singleton, List.not_mem_nil, or_false] at hx
      rcases hx with rfl | rfl | rfl
      · rfl
      · rfl
      · exact quiet_lsh e
  · have hq : ∀ sts, ∀ e ∈ [Event.fork (os.fork w.clock).pid]
        ++ wait_events (os.fork w.clock).pid sts, quiet e = true := by
      intro sts e he
      rcases List.mem_append.mp he with h | h
      · simp only [List.mem_singleton] at h
        subst h
        rfl
      · exact quiet_wait_events _ _ e h
    rw [lsh_launch_parent os args w hp]
    cases (os.fork w.clock).statuses.dropWhile (fun st => !terminal st) with
    | nil =>
      refine ⟨rfl, _, ?_, hq (os.fork w.clock).statuses⟩
      simp [Res.world, after, tick]
    | cons fin rest =>
      refine ⟨rfl, _, ?_,
        hq ((os.fork w.clock).statuses.takeWhile (fun st => !terminal st) ++ [fin])⟩
      simp [Res.world, after, tick]

/-- Whenever `lsh_launch` returns, it returns 1. -/
theorem lsh_launch_ret (os : OS) (args : List CStr) (w : World) (v : Int) (w1 : World)
    (h : lsh_launch os args w = .ret v w1) : v = 1 := by
  rcases lt_trichotomy (os.fork w.clock).pid 0 with hp | hp | hp
  · rw [lsh_launch_fork_failed os args w hp] at h
    injection h with h1 _
    exact h1.symm
  · rw [lsh_launch_child os args w hp] at h
    cases he : os.execvp (w.clock + 1) (args.headD []) args with
    | none => rw [he] at h; exact Res.noConfusion h
    | some e => rw [he] at h; exact Res.noConfusion h
  · rw [lsh_launch_parent os args w hp] at h
    cases hd : (os.fork w.clock).statuses.dropWhile (fun st => !terminal st) with
    | nil => rw [hd] at h; exact Res.noConfusion h
    | cons fin rest =>
      rw [hd] at h
      injection h with h1 _
      exact h1.symm

/-- Whenever `lsh_cd` returns, it returns 1. -/
theorem lsh_cd_ret (os : OS) (args : List CStr) (w : World) :
    ∃ w1, lsh_cd os args w = .ret 1 w1 := by
  unfold lsh_cd
  cases args[1]? with
  | none => exact ⟨_, rfl⟩
  | some path =>
    by_cases h : (chdir os path w).1 ≠ 0
    · exact ⟨_, if_pos h⟩
    · exact ⟨_, if_neg h⟩

theorem ext_execute (os : OS) (args : List CStr) (w : World) :
    Ext w (lsh_execute os args w).world := by
  cases args with
  | nil => exact Ext.refl w
  | cons name rest =>
    rw [lsh_execute_cons]
    split
    · exact ext_cd os _ w
    · split
      · exact ext_help os _ w
      · split
        · exact Ext.refl w
        · exact ext_launch os _ w

/-- The value `lsh_execute` returns, when it returns: 0 exactly when the first token
is `exit`. -/
theorem lsh_execute_status (os : OS) (args : List CStr) (w : World) (v : Int) (w1 : World)
    (h : lsh_execute os args w = .ret v w1) :
    v = if args.head? = some "exit".toList then 0 else 1 := by
  cases args with
  | nil =>
    have : lsh_execute os [] w = .ret 1 w := rfl
    rw [this] at h
    injection h with h1 _
    simp [← h1]
  | cons name rest =>
    rw [lsh_execute_cons] at h
    by_cases h1 : name = "cd".toList
    · rw [if_pos h1] at h
      obtain ⟨w2, h2⟩ := lsh_cd_ret os (name :: rest) w
      rw [h2] at h
      injection h with h3 _
      subst h1
      rw [← h3, List.head?_cons, if_neg (by decide)]
    · rw [if_neg h1] at h
      by_cases h2 : name = "help".toList
      · rw [if_pos h2, lsh_help_eq] at h
        injection h with h3 _
        subst h2
        rw [← h3, List.head?_cons, if_neg (by decide)]
      · rw [if_neg h2] at h
        by_cases h3 : name = "exit".toList
        · rw [if_pos h3] at h
          injection h with h4 _
          simp [h3, ← h4]
        · rw [if_neg h3] at h
          have := lsh_launch_ret os _ w v w1 h
          rw [this, List.head?_cons, if_neg (fun e => h3 (Option.some.inj e))]

/-! ## The main loop -/

theorem ext_bind {α β : Type} (w : World) (r : Res α) (f : α → World → Res β)
    (h1 : Ext w r.world) (h2 : ∀ a w1, r = .ret a w1 → Ext w1 (f a w1).world) :
    Ext w (r.bind f).world := by
  cases r with
  | ret a w1 => exact h1.trans (h2 a w1 rfl)
  | exit c w1 => exact h1
  | exec w1 => exact h1
  | hang w1 => exact h1
  | fault why w1 => exact h1

theorem body_ext (os : OS) (line : List Char) (w : World) : Ext w (body os line w).world :=
  ext_bind w _ _ (ext_split_line os line w) fun _ w1 _ => ext_execute os _ w1

theorem body_status (os : OS) (line : List Char) (w : World) (v : Int) (w1 : World)
    (h : body os line w = .ret v w1) : v = if is_exit line = true then 0 else 1 := by
  unfold body at h
  cases hs : lsh_split_line os line w with
  | ret buf w2 =>
    rw [hs] at h
    simp only [Res.bind] at h
    rw [lsh_split_line_ret os line w buf w2 hs] at h
    have := lsh_execute_status os _ _ v w1 h
    rw [this]
    simp [is_exit]
  | exit c w2 => rw [hs] at h; exact Res.noConfusion h
  | exec w2 => rw [hs] at h; exact Res.noConfusion h
  | hang w2 => rw [hs] at h; exact Res.noConfusion h
  | fault why w2 => rw [hs] at h; exact Res.noConfusion h

theorem lsh_launch_no_fault (os : OS) (args : List CStr) (w : World) :
    (lsh_launch os args w).isFault = false := by
  rcases lt_trichotomy (os.fork w.clock).pid 0 with hp | hp | hp
  · rw [lsh_launch_fork_failed os args w hp]; rfl
  · rw [lsh_launch_child os args w hp]
    cases os.execvp (w.clock + 1) (args.headD []) args <;> rfl
  · rw [lsh_launch_parent os args w hp]
    cases (os.fork w.clock).statuses.dropWhile (fun st => !terminal st) <;> rfl

theorem lsh_execute_no_fault (os : OS) (args : List CStr) (w : World) :
    (lsh_execute os args w).isFault = false := by
  cases args with
  | nil => rfl
  | cons name rest =>
    rw [lsh_execute_cons]
    split
    · obtain ⟨w1, h⟩ := lsh_cd_ret os (name :: rest) w
      rw [h]; rfl
    · split
      · rw [lsh_help_eq]; rfl
      · split
        · rfl
        · exact lsh_launch_no_fault os _ w

theorem fault_kind_of_not_isFault {α : Type} (r : Res α) (h : r.isFault = false) :
    r.fault_kind = none := by
  cases r <;> first | rfl | exact absurd h (by simp [Res.isFault])

theorem isFault_of_fault_kind {α : Type} (r : Res α) (h : r.fault_kind = none) :
    r.isFault = false := by
  cases r <;> first | rfl | exact absurd h (by simp [Res.fault_kind])

/-- The body of an iteration ends in no fault, unless the line has too many tokens
for `int`, and then the fault is the overflow. -/
theorem body_fault (os : OS) (line : List Char) (w : World) :
    (body os line w).fault_kind = none
      ∨ ((body os line w).fault_kind = some Fault.intOverflow ∧ ¬ fits_int line) := by
  unfold body
  obtain ⟨c, ⟨hc, _⟩ | ⟨hc, _⟩ | ⟨hc, hn⟩⟩ := lsh_split_line_outcome os line w
  · rw [hc]
    exact Or.inl (fault_kind_of_not_isFault _ (lsh_execute_no_fault os _ _))
  · rw [hc]; exact Or.inl rfl
  · rw [hc]; exact Or.inr ⟨rfl, hn⟩

theorem lsh_loop_nil (os : OS) (fuel : Nat) (w : World) (h : w.stdin = []) :
    lsh_loop os (fuel + 1) w =
      match os.stdin_error with
      | none => .exit EXIT_SUCCESS (after [prompt, .getline none] w)
      | some e => .exit EXIT_FAILURE (after [prompt, .getline none,
          .stderr ("readline".toList ++ ": ".toList ++ e ++ "\n".toList)] { w with errno := e }) := by
  simp only [lsh_loop, lsh_read_line, printf, emit, h]
  cases os.stdin_error with
  | none => simp [Res.bind, after, prompt, h]
  | some e => simp [Res.bind, after, prompt, perror, emit, h]

theorem lsh_loop_cons (os : OS) (fuel : Nat) (w : World) (line : CStr) (rest : List CStr)
    (h : w.stdin = line :: rest) :
    lsh_loop os (fuel + 1) w =
      (body os line (w_read line rest w)).bind fun status w =>
        if status ≠ 0 then lsh_loop os fuel w else .ret () w := by
  have hw : emit (.getline (some line)) { printf "> " w with stdin := rest }
      = w_read line rest w := by
    simp [w_read, after, printf, emit, prompt]
  simp only [lsh_loop, lsh_read_line, printf, emit, h, Res.bind, body]
  simp only [printf, emit] at hw
  rw [hw]
  cases lsh_split_line os line (w_read line rest w) <;> rfl

theorem lsh_loop_step (os : OS) (w : World) (fuel : Nat) (line : CStr) (rest : List CStr)
    (h : w.stdin = line :: rest) :
    lsh_loop os (fuel + 1) w =
      (lsh_split_line os line (w_read line rest w)).bind fun args w1 =>
        (lsh_execute os (argv args.tokens) w1).bind fun status w2 =>
          if status ≠ 0 then lsh_loop os fuel w2 else .ret () w2 := by
  rw [lsh_loop_cons os fuel w line rest h]
  unfold body
  cases lsh_split_line os line (w_read line rest w) <;> rfl

/-- Whatever the environment answers, a run of the loop with enough fuel extends the
trace by a `LoopTrace` of the input; it ends in no fault, unless a line of the input
has too many tokens for `int`, and then the fault is the overflow. -/
theorem loop_trace (os : OS) (fuel : Nat) :
    ∀ w : World, w.stdin.length < fuel →
      ∃ new, (lsh_loop os fuel w).world.trace = w.trace ++ new
        ∧ LoopTrace os w.stdin new
        ∧ ((lsh_loop os fuel w).fault_kind = none
          ∨ ((lsh_loop os fuel w).fault_kind = some Fault.intOverflow
            ∧ ∃ l ∈ w.stdin, ¬ fits_int l)) := by
  induction fuel with
  | zero => intro w h; exact absurd h (Nat.not_lt_zero _)
  | succ fuel ih =>
    intro w hfuel
    cases hs : w.stdin with
    | nil =>
      rw [lsh_loop_nil os fuel w hs]
      cases he : os.stdin_error with
      | none => exact ⟨_, rfl, LoopTrace.eof he, Or.inl rfl⟩
      | some e => exact ⟨_, rfl, LoopTrace.err e he, Or.inl rfl⟩
    | cons line rest =>
      rw [lsh_loop_cons os fuel w line rest hs]
      obtain ⟨hst, q, hq, hquiet⟩ := body_ext os line (w_read line rest w)
      have hnf := body_fault os line (w_read line rest w)
      have htr : (w_read line rest w).trace = w.trace ++ [prompt, .getline (some line)] := rfl
      rw [htr, List.append_assoc] at hq
      cases hr : body os line (w_read line rest w) with
      | ret status w2 =>
        rw [hr] at hq hst
        simp only [Res.world] at hq hst
        simp only [Res.bind]
        by_cases h0 : status ≠ 0
        · rw [if_pos h0]
          have hlen : w2.stdin.length < fuel := by
            rw [hst]
            have : (w_read line rest w).stdin = rest := rfl
            rw [this]
            rw [hs] at hfuel
            simp only [List.length_cons] at hfuel
            omega
          obtain ⟨tr, h1, h2, h3⟩ := ih w2 hlen
          have hne : is_exit line = false := by
            have := body_status os line _ status w2 hr
            cases hx : is_exit line with
            | false => rfl
            | true => rw [hx] at this; simp at this; exact absurd this h0
          have hrest : w2.stdin = rest := hst
          refine ⟨[prompt, .getline (some line)] ++ q ++ tr, ?_, ?_, ?_⟩
          · rw [h1, hq]
            simp only [List.append_assoc]
          · rw [hrest] at h2
            exact LoopTrace.step line rest q tr hquiet hne h2
          · rcases h3 with h3 | ⟨h3, l, hl, hn⟩
            · exact Or.inl h3
            · rw [hrest] at hl
              exact Or.inr ⟨h3, l, List.mem_cons_of_mem _ hl, hn⟩
        · rw [if_neg h0]
          exact ⟨_, hq, LoopTrace.stop line rest q hquiet, Or.inl rfl⟩
      | exit c w2 =>
        rw [hr] at hq
        exact ⟨_, hq, LoopTrace.stop line rest q hquiet, Or.inl rfl⟩
      | exec w2 =>
        rw [hr] at hq
        exact ⟨_, hq, LoopTrace.stop line rest q hquiet, Or.inl rfl⟩
      | hang w2 =>
        rw [hr] at hq
        exact ⟨_, hq, LoopTrace.stop line rest q hquiet, Or.inl rfl⟩
      | fault why w2 =>
        rw [hr] at hq hnf
        rcases hnf with hnf | ⟨hnf, hn⟩
        · exact absurd hnf (by simp [Res.fault_kind])
        · exact ⟨_, hq, LoopTrace.stop line rest q hquiet,
            Or.inr ⟨hnf, line, List.mem_cons_self _ _, hn⟩⟩

theorem main_world (os : OS) (w : World) :
    (main os w).world = (lsh_loop os (w.stdin.length + 1) w).world
      ∧ (main os w).fault_kind = (lsh_loop os (w.stdin.length + 1) w).fault_kind := by
  unfold main
  cases lsh_loop os (w.stdin.length + 1) w <;> exact ⟨rfl, rfl⟩

/-- Whatever the environment answers, a run of `main` extends the trace by a
`LoopTrace` of the input: the fuel of the loop is enough and no store leaves the
token buffer; it ends in no fault, unless a line of the input has too many tokens for
`int`, and then the fault is the overflow. -/
theorem main_trace (os : OS) (w : World) :
    ∃ new, (main os w).world.trace = w.trace ++ new
      ∧ LoopTrace os w.stdin new
      ∧ ((main os w).fault_kind = none
        ∨ ((main os w).fault_kind = some Fault.intOverflow ∧ ∃ l ∈ w.stdin, ¬ fits_int l)) := by
  obtain ⟨new, h1, h2, h3⟩ := loop_trace os (w.stdin.length + 1) w (Nat.lt_succ_self _)
  exact ⟨new, by rw [(main_world os w).1]; exact h1, h2, by rw [(main_world os w).2]; exact h3⟩

theorem prompted_cons_quiet (e : Event) (rest : List Event) (he : quiet e = true)
    (hr : prompted rest = true) : prompted (e :: rest) = true := by
  cases e with
  | getline r => simp [quiet] at he
  | stdout s =>
    have hs : (Event.stdout s != prompt) = true := by
      simp only [quiet] at he
      simp only [prompt, bne_iff_ne, ne_eq, Event.stdout.injEq]
      simpa using he
    cases rest with
    | nil => simp [prompted, hs]
    | cons x xs =>
      cases x with
      | getline r => simp [prompted] at hr
      | stdout t => simp only [prompted, hs, hr, Bool.and_self]
      | stderr t =>
        simp only [prompted] at hr ⊢
        simp only [hs, hr, Bool.and_self]
      | chdir a b =>
        simp only [prompted] at hr ⊢
        simp only [hs, hr, Bool.and_self]
      | fork a =>
        simp only [prompted] at hr ⊢
        simp only [hs, hr, Bool.and_self]
      | execvp a b =>
        simp only [prompted] at hr ⊢
        simp only [hs, hr, Bool.and_self]
      | waitpid a b c =>
        simp only [prompted] at hr ⊢
        simp only [hs, hr, Bool.and_self]
  | stderr s => simp [prompted, hr, prompt]
  | chdir a b => simp [prompted, hr, prompt]
  | fork a => simp [prompted, hr, prompt]
  | execvp a b => simp [prompted, hr, prompt]
  | waitpid a b c => simp [prompted, hr, prompt]

theorem prompted_quiet_append (q tr : List Event) (hq : ∀ e ∈ q, quiet e = true)
    (htr : prompted tr = true) : prompted (q ++ tr) = true := by
  induction q with
  | nil => exact htr
  | cons e q ih =>
    exact prompted_cons_quiet e (q ++ tr) (hq e (List.mem_cons_self _ _))
      (ih fun x hx => hq x (List.mem_cons_of_mem _ hx))

theorem prompted_iteration (r : Option CStr) (rest : List Event) :
    prompted ([prompt, .getline r] ++ rest) = prompted rest := by
  simp [prompted, prompt]

theorem reads_of_append (a b : List Event) : reads_of (a ++ b) = reads_of a ++ reads_of b := by
  induction a with
  | nil => rfl
  | cons e a ih => cases e <;> simp [reads_of, ih]

theorem reads_of_quiet (q : List Event) (hq : ∀ e ∈ q, quiet e = true) : reads_of q = [] := by
  induction q with
  | nil => rfl
  | cons e q ih =>
    have he := hq e (List.mem_cons_self _ _)
    have := ih fun x hx => hq x (List.mem_cons_of_mem _ hx)
    cases e <;> simp_all [reads_of, quiet]

theorem prompts_of_quiet (q : List Event) (hq : ∀ e ∈ q, quiet e = true) :
    prompts_of q = 0 := by
  unfold prompts_of
  rw [List.count_eq_zero]
  intro h
  exact absurd (hq prompt h) (by decide)

theorem stderr_of_append (a b : List Event) :
    stderr_of (a ++ b) = stderr_of a ++ stderr_of b := by
  induction a with
  | nil => rfl
  | cons e a ih => cases e <;> simp [stderr_of, ih]

theorem stderr_of_quiet (q : List Event) (hq : ∀ e ∈ q, quiet e = true) :
    ∀ s ∈ stderr_of q, "lsh:".toList.isPrefixOf s = true := by
  induction q with
  | nil => intro s hs; simp [stderr_of] at hs
  | cons e q ih =>
    have he := hq e (List.mem_cons_self _ _)
    have ih2 := ih fun x hx => hq x (List.mem_cons_of_mem _ hx)
    intro s hs
    cases e with
    | stderr t =>
      simp only [stderr_of, List.mem_cons] at hs
      rcases hs with rfl | hs
      · exact he
      · exact ih2 s hs
    | stdout t => exact ih2 s hs
    | getline t => exact ih2 s hs
    | chdir a b => exact ih2 s hs
    | fork a => exact ih2 s hs
    | execvp a b => exact ih2 s hs
    | waitpid a b c => exact ih2 s hs

theorem LoopTrace.prompted {os : OS} {stdin : List CStr} {new : List Event}
    (h : LoopTrace os stdin new) : Lsh.prompted new = true := by
  induction h with
  | eof _ => rfl
  | err e _ => rfl
  | stop line rest q hq =>
    rw [prompted_iteration]
    simpa using prompted_quiet_append q [] hq rfl
  | step line rest q tr hq _ _ ih =>
    rw [List.append_assoc, prompted_iteration]
    exact prompted_quiet_append q tr hq ih

theorem LoopTrace.counts {os : OS} {stdin : List CStr} {new : List Event}
    (h : LoopTrace os stdin new) : prompts_of new = (reads_of new).length := by
  induction h with
  | eof _ => rfl
  | err e _ => rfl
  | stop line rest q hq =>
    have h1 := prompts_of_quiet q hq
    have h2 := reads_of_quiet q hq
    simp only [prompts_of] at h1 ⊢
    rw [List.count_append, h1, reads_of_append, h2]
    rfl
  | step line rest q tr hq _ _ ih =>
    have h1 := prompts_of_quiet q hq
    have h2 := reads_of_quiet q hq
    simp only [prompts_of] at h1 ih ⊢
    rw [List.count_append, List.count_append, h1, ih, reads_of_append, reads_of_append, h2]
    simp only [List.length_append, List.append_nil]
    rfl

theorem LoopTrace.reads {os : OS} {stdin : List CStr} {new : List Event}
    (h : LoopTrace os stdin new) : reads_of new <+: stdin.map some ++ [none] := by
  induction h with
  | eof _ => exact List.prefix_refl _
  | err e _ => exact List.prefix_refl _
  | stop line rest q hq =>
    rw [reads_of_append, reads_of_quiet q hq]
    exact ⟨rest.map some ++ [none], rfl⟩
  | step line rest q tr hq _ _ ih =>
    rw [reads_of_append, reads_of_append, reads_of_quiet q hq]
    obtain ⟨t, ht⟩ := ih
    exact ⟨t, by simp only [reads_of, List.append_nil, List.map_cons, List.cons_append,
      List.nil_append, ← ht, List.append_assoc]⟩

theorem LoopTrace.stops_at_exit {os : OS} (pre : List CStr) (line : CStr)
    (hexit : is_exit line = true) :
    ∀ (post : List CStr) (new : List Event), LoopTrace os (pre ++ line :: post) new →
      (reads_of new).length ≤ pre.length + 1 := by
  induction pre with
  | nil =>
    intro post new h
    cases h with
    | stop _ _ q hq => rw [reads_of_append, reads_of_quiet q hq]; simp [reads_of]
    | step _ _ q tr hq hne _ => rw [hexit] at hne; exact absurd hne (by simp)
  | cons p pre ih =>
    intro post new h
    cases h with
    | stop _ _ q hq => rw [reads_of_append, reads_of_quiet q hq]; simp [reads_of]
    | step _ _ q tr hq hne h2 =>
      have := ih post tr h2
      rw [reads_of_append, reads_of_append, reads_of_quiet q hq]
      simp only [reads_of, List.append_nil, List.length_cons, List.length_nil, List.length_append]
      omega

theorem LoopTrace.diagnostics {os : OS} {stdin : List CStr} {new : List Event}
    (h : LoopTrace os stdin new) :
    ∀ s ∈ stderr_of new, "lsh:".toList.isPrefixOf s = true
      ∨ ∃ e, os.stdin_error = some e ∧ s = "readline: ".toList ++ e ++ "\n".toList := by
  induction h with
  | eof _ => intro s hs; simp [stderr_of, prompt] at hs
  | err e he =>
    intro s hs
    simp only [stderr_of, prompt, List.mem_singleton] at hs
    exact Or.inr ⟨e, he, by rw [hs]; simp⟩
  | stop line rest q hq =>
    intro s hs
    rw [stderr_of_append] at hs
    simp only [stderr_of, prompt, List.nil_append] at hs
    exact Or.inl (stderr_of_quiet q hq s hs)
  | step line rest q tr hq _ _ ih =>
    intro s hs
    rw [stderr_of_append, stderr_of_append] at hs
    simp only [stderr_of, prompt, List.nil_append] at hs
    rcases List.mem_append.mp hs with h1 | h1
    · exact Or.inl (stderr_of_quiet q hq s h1)
    · exact ih s h1

theorem lsh_launch_benign (os : OS) (hb : Benign os) (args : List CStr) (w : World) :
    ∃ w1, lsh_launch os args w = .ret 1 w1 := by
  rcases lt_trichotomy (os.fork w.clock).pid 0 with hp | hp | hp
  · exact ⟨_, lsh_launch_fork_failed os args w hp⟩
  · exact absurd hp (hb.2.1 _)
  · rw [lsh_launch_parent os args w hp]
    cases hd : (os.fork w.clock).statuses.dropWhile (fun st => !terminal st) with
    | nil =>
      obtain ⟨st, hst, ht⟩ := hb.2.2 _ hp
      have := (List.dropWhile_eq_nil_iff.mp hd) st hst
      simp [ht] at this
    | cons fin rest => exact ⟨_, rfl⟩

theorem lsh_execute_benign (os : OS) (hb : Benign os) (args : List CStr) (w : World) :
    ∃ w1, lsh_execute os args w
      = .ret (if args.head? = some "exit".toList then 0 else 1) w1 := by
  have hnf : ∃ v w1, lsh_execute os args w = .ret v w1 := by
    cases args with
    | nil => exact ⟨1, w, rfl⟩
    | cons name rest =>
      rw [lsh_execute_cons]
      split
      · obtain ⟨w1, h⟩ := lsh_cd_ret os (name :: rest) w
        exact ⟨1, w1, h⟩
      · split
        · exact ⟨1, _, lsh_help_eq os _ w⟩
        · split
          · exact ⟨0, w, rfl⟩
          · obtain ⟨w1, h⟩ := lsh_launch_benign os hb (name :: rest) w
            exact ⟨1, w1, h⟩
  obtain ⟨v, w1, h⟩ := hnf
  exact ⟨w1, by rw [h, lsh_execute_status os args w v w1 h]⟩

theorem body_benign (os : OS) (hb : Benign os) (line : List Char) (hfit : fits_int line)
    (w : World) :
    ∃ w1, body os line w = .ret (if is_exit line = true then 0 else 1) w1 ∧ Ext w w1 := by
  have hext := body_ext os line w
  have hbody : ∃ v w1, body os line w = .ret v w1 := by
    unfold body
    obtain ⟨c, hc⟩ := lsh_split_line_ok os hb.1 line hfit w
    rw [hc]
    obtain ⟨w1, h⟩ := lsh_execute_benign os hb
      (argv (filled [] (spec_tokens (cstr line)))) { w with clock := c }
    exact ⟨_, w1, h⟩
  obtain ⟨v, w1, h⟩ := hbody
  refine ⟨w1, by rw [h, body_status os line w v w1 h], ?_⟩
  rw [h] at hext
  exact hext

theorem loop_benign_exit (os : OS) (hb : Benign os) (line : CStr) (post : List CStr)
    (hexit : is_exit line = true) (hfit : fits_int line) (pre : List CStr) :
    ∀ (fuel : Nat) (w : World), w.stdin = pre ++ line :: post →
      (∀ l ∈ pre, is_exit l = false) → (∀ l ∈ pre, fits_int l) → pre.length < fuel →
      ∃ w1 new, lsh_loop os fuel w = .ret () w1 ∧ w1.stdin = post
        ∧ w1.trace = w.trace ++ new ∧ reads_of new = (pre ++ [line]).map some := by
  induction pre with
  | nil =>
    intro fuel w hs _ _ hfuel
    obtain ⟨f, rfl⟩ : ∃ f, fuel = f + 1 := ⟨fuel - 1, by omega⟩
    rw [lsh_loop_cons os f w line post hs]
    obtain ⟨w1, h1, hst, q, hq, hquiet⟩ := body_benign os hb line hfit (w_read line post w)
    rw [h1, hexit]
    refine ⟨w1, [prompt, .getline (some line)] ++ q, rfl, hst, ?_, ?_⟩
    · rw [hq]
      simp [w_read, after]
    · rw [reads_of_append, reads_of_quiet q hquiet]
      rfl
  | cons p pre ih =>
    intro fuel w hs hpre hfits hfuel
    obtain ⟨f, rfl⟩ : ∃ f, fuel = f + 1 := ⟨fuel - 1, by omega⟩
    rw [lsh_loop_cons os f w p (pre ++ line :: post) hs]
    obtain ⟨w1, h1, hst, q, hq, hquiet⟩ :=
      body_benign os hb p (hfits p (List.mem_cons_self _ _)) (w_read p (pre ++ line :: post) w)
    rw [h1, hpre p (List.mem_cons_self _ _)]
    simp only [Res.bind, Bool.false_eq_true, if_false, ne_eq, one_ne_zero, not_false_eq_true,
      if_true]
    obtain ⟨w2, new, h2, hst2, htr2, hr2⟩ := ih f w1 hst
      (fun l hl => hpre l (List.mem_cons_of_mem _ hl))
      (fun l hl => hfits l (List.mem_cons_of_mem _ hl))
      (by simp only [List.length_cons] at hfuel; omega)
    refine ⟨w2, [prompt, .getline (some p)] ++ q ++ new, h2, hst2, ?_, ?_⟩
    · rw [htr2, hq]
      simp [w_read, after]
    · rw [reads_of_append, reads_of_append, reads_of_quiet q hquiet, hr2]
      rfl

theorem loop_benign_eof (os : OS) (hb : Benign os) (stdin : List CStr) :
    ∀ (fuel : Nat) (w : World), w.stdin = stdin →
      (∀ l ∈ stdin, is_exit l = false) → (∀ l ∈ stdin, fits_int l) → stdin.length < fuel →
      ∃ w1 new, lsh_loop os fuel w
          = .exit (if os.stdin_error = none then EXIT_SUCCESS else EXIT_FAILURE) w1
        ∧ w1.trace = w.trace ++ new ∧ reads_of new = stdin.map some ++ [none] := by
  induction stdin with
  | nil =>
    intro fuel w hs _ _ hfuel
    obtain ⟨f, rfl⟩ : ∃ f, fuel = f + 1 := ⟨fuel - 1, by omega⟩
    rw [lsh_loop_nil os f w hs]
    cases os.stdin_error with
    | none => exact ⟨_, _, rfl, rfl, rfl⟩
    | some e => exact ⟨_, _, rfl, rfl, rfl⟩
  | cons p rest ih =>
    intro fuel w hs hpre hfits hfuel
    obtain ⟨f, rfl⟩ : ∃ f, fuel = f + 1 := ⟨fuel - 1, by simp at hfuel; omega⟩
    rw [lsh_loop_cons os f w p rest hs]
    obtain ⟨w1, h1, hst, q, hq, hquiet⟩ :=
      body_benign os hb p (hfits p (List.mem_cons_self _ _)) (w_read p rest w)
    rw [h1, hpre p (List.mem_cons_self _ _)]
    simp only [Res.bind, Bool.false_eq_true, if_false, ne_eq, one_ne_zero, not_false_eq_true,
      if_true]
    obtain ⟨w2, new, h2, htr2, hr2⟩ := ih f w1 hst
      (fun l hl => hpre l (List.mem_cons_of_mem _ hl))
      (fun l hl => hfits l (List.mem_cons_of_mem _ hl))
      (by simp only [List.length_cons] at hfuel; omega)
    refine ⟨w2, [prompt, .getline (some p)] ++ q ++ new, h2, ?_, ?_⟩
    · rw [htr2, hq]
      simp [w_read, after]
    · rw [reads_of_append, reads_of_append, reads_of_quiet q hquiet, hr2]
      rfl

theorem main_of_loop_ret (os : OS) (w w1 : World)
    (h : lsh_loop os (w.stdin.length + 1) w = .ret () w1) : main os w = .ret EXIT_SUCCESS w1 := by
  unfold main
  rw [h]
  rfl

theorem main_of_loop_exit (os : OS) (w w1 : World) (c : Int)
    (h : lsh_loop os (w.stdin.length + 1) w = .exit c w1) : main os w = .exit c w1 := by
  unfold main
  rw [h]
  rfl

theorem body_cd_tmp (os : OS) (halloc : ∀ k, os.alloc k = true)
    (hcd : ∀ k, os.chdir k "/tmp".toList = none) (w : World) :
    ∃ c, body os "cd /tmp\n".toList w
      = .ret 1 (after [.chdir "/tmp".toList true] { w with clock := c, cwd := "/tmp".toList }) := by
  have t1 : spec_tokens (cstr "cd /tmp\n".toList) = ["cd".toList, "/tmp".toList] := by decide
  have f1 : fits_int "cd /tmp\n".toList := by
    show (spec_tokens (cstr "cd /tmp\n".toList)).length + LSH_TOK_BUFSIZE ≤ INT_MAX
    decide
  obtain ⟨c, hc⟩ := lsh_split_line_ok os halloc "cd /tmp\n".toList f1 w
  refine ⟨c + 1, ?_⟩
  simp only [body]
  rw [hc, t1]
  simp only [Res.bind, filled, List.nil_append, argv_filled]
  rw [lsh_execute_cons, if_pos rfl]
  simp only [lsh_cd, List.getElem?_cons_succ, List.getElem?_cons_zero, chdir, hcd]
  simp [after, emit, tick]

theorem body_exit (os : OS) (halloc : ∀ k, os.alloc k = true) (w : World) :
    ∃ c, body os "exit\n".toList w = .ret 0 { w with clock := c } := by
  have t2 : spec_tokens (cstr "exit\n".toList) = ["exit".toList] := by decide
  have f2 : fits_int "exit\n".toList := by
    show (spec_tokens (cstr "exit\n".toList)).length + LSH_TOK_BUFSIZE ≤ INT_MAX
    decide
  obtain ⟨c, hc⟩ := lsh_split_line_ok os halloc "exit\n".toList f2 w
  refine ⟨c, ?_⟩
  simp only [body]
  rw [hc, t2]
  simp only [Res.bind, filled, List.nil_append, argv_filled]
  rw [lsh_execute_cons, if_neg (by decide), if_neg (by decide), if_pos rfl]
  rfl

theorem main_cd_tmp_exit (os : OS) (w : World) (halloc : ∀ k, os.alloc k = true)
    (hcd : ∀ k, os.chdir k "/tmp".toList = none)
    (hs : w.stdin = stdin_lines "cd /tmp\nexit\n".toList) :
    ∃ c, main os w = .ret EXIT_SUCCESS (after cd_tmp_exit_events
      { w with clock := c, cwd := "/tmp".toList, stdin := [] }) := by
  have hs2 : w.stdin = ["cd /tmp\n".toList, "exit\n".toList] := by rw [hs]; decide
  obtain ⟨c1, h1⟩ := body_cd_tmp os halloc hcd
    (w_read "cd /tmp\n".toList ["exit\n".toList] w)
  obtain ⟨c2, h2⟩ := body_exit os halloc
    (w_read "exit\n".toList []
      (after [.chdir "/tmp".toList true]
        { w_read "cd /tmp\n".toList ["exit\n".toList] w with
          clock := c1, cwd := "/tmp".toList }))
  refine ⟨c2, ?_⟩
  apply main_of_loop_ret
  rw [hs2]
  simp only [List.length_cons, List.length_nil]
  rw [lsh_loop_cons os _ w _ _ hs2, h1]
  simp only [Res.bind, ne_eq, one_ne_zero, not_false_eq_true, if_true]
  rw [lsh_loop_cons os _ _ "exit\n".toList [] rfl, h2]
  simp [Res.bind, w_read, after, cd_tmp_exit_events]

/-! ## C7: the read-eval loop -/

theorem benign_plain : Benign os_plain :=
  ⟨fun _ => rfl, fun _ => show (-1 : Int) ≠ 0 by decide,
    fun _ h => absurd (show (0 : Int) < -1 from h) (by decide)⟩

theorem LoopTrace.read_error {os : OS} {stdin : List CStr} {new : List Event}
    (h : LoopTrace os stdin new) (e : Errno) (he : os.stdin_error = some e)
    (hr : reads_of new = stdin.map some ++ [none]) :
    "readline: ".toList ++ e ++ "\n".toList ∈ stderr_of new := by
  induction h with
  | eof h0 => rw [h0] at he; exact Option.noConfusion he
  | err e1 h1 =>
    rw [h1] at he
    injection he with he
    subst he
    simp [stderr_of, prompt]
  | stop line rest q hq =>
    rw [reads_of_append, reads_of_quiet q hq] at hr
    have := congrArg List.length hr
    simp [reads_of, prompt] at this
  | step line rest q tr hq _ _ ih =>
    rw [reads_of_append, reads_of_append, reads_of_quiet q hq] at hr
    simp only [reads_of, prompt, List.append_nil, List.map_cons, List.cons_append,
      List.nil_append, List.cons.injEq, true_and] at hr
    rw [stderr_of_append]
    exact List.mem_append_right _ (ih hr)

theorem is_exit_line_of_tokens (k : Nat) : is_exit (line_of_tokens k) = false := by
  unfold is_exit
  rw [cstr_of_nul_free _ (line_of_tokens_nul_free k), spec_tokens_line_of_tokens]
  cases k with
  | zero => rfl
  | succ k =>
    rw [List.replicate_succ, List.head?_cons]
    decide

theorem main_overflow (os : OS) (halloc : ∀ k, os.alloc k = true) (w : World)
    (line : CStr) (rest : List CStr) (hs : w.stdin = line :: rest) (hfit : ¬ fits_int line) :
    ∃ c, main os w = .fault .intOverflow { w_read line rest w with clock := c } := by
  obtain ⟨c, hc⟩ := lsh_split_line_overflow os halloc line hfit (w_read line rest w)
  refine ⟨c, ?_⟩
  unfold main
  rw [lsh_loop_cons os _ w line rest hs]
  unfold body
  rw [hc]
  rfl

theorem fits_cd_tmp_exit : ∀ l ∈ (world_start "cd /tmp\nexit\n").stdin, fits_int l := by
  intro l hl
  have hs : (world_start "cd /tmp\nexit\n").stdin = ["cd /tmp\n".toList, "exit\n".toList] := by
    decide
  rw [hs] at hl
  rcases List.mem_cons.mp hl with h | h
  · subst h
    show (spec_tokens (cstr "cd /tmp\n".toList)).length + LSH_TOK_BUFSIZE ≤ INT_MAX
    decide
  · rcases List.mem_cons.mp h with h | h
    · subst h
      show (spec_tokens (cstr "exit\n".toList)).length + LSH_TOK_BUFSIZE ≤ INT_MAX
      decide
    · exact absurd h (List.not_mem_nil _)

/-- C7 fails as stated: the input is one line of 2^31 − 64 tokens `a`, none of them
`exit`, followed by a clean end of input, and the environment lets the shell process
run on without a read error.  The claim promises exit code 0 after the end of input is
reached; the run instead stops while it splits the line, at the overflow of the `int`
counter `bufsize`, with no exit code, after one prompt and one read. -/
theorem main_read_eval_loop_counterexample :
    Benign os_plain ∧ os_plain.stdin_error = none
      ∧ (world_with [line_of_tokens 2147483584]).stdin = [line_of_tokens 2147483584]
      ∧ (∀ l ∈ (world_with [line_of_tokens 2147483584]).stdin, is_exit l = false)
      ∧ (main os_plain (world_with [line_of_tokens 2147483584])).fault_kind
          = some Fault.intOverflow
      ∧ (main os_plain (world_with [line_of_tokens 2147483584])).isFault = true
      ∧ exit_code (main os_plain (world_with [line_of_tokens 2147483584])) = none
      ∧ exit_code (main os_plain (world_with [line_of_tokens 2147483584])) ≠ some 0
      ∧ run_events os_plain (world_with [line_of_tokens 2147483584])
          = [prompt, .getline (some (line_of_tokens 2147483584))] := by
  obtain ⟨c, hc⟩ := main_overflow os_plain (fun _ => rfl)
    (world_with [line_of_tokens 2147483584]) (line_of_tokens 2147483584) [] rfl
    (not_fits_line_of_tokens 2147483584 (by decide))
  refine ⟨benign_plain, rfl, rfl, ?_, ?_, ?_, ?_, ?_, ?_⟩
  · intro l hl
    rcases List.mem_cons.mp hl with h | h
    · rw [h]
      exact is_exit_line_of_tokens _
    · exact absurd h (List.not_mem_nil _)
  · rw [hc]; rfl
  · rw [hc]; rfl
  · rw [hc]; rfl
  · rw [hc]
    exact fun h => Option.noConfusion h
  · unfold run_events
    rw [hc]
    rfl

/-- C7 as amended: for every input (given as the lines `getline` delivers) and every answer of
the environment, a run of `main` adds to the trace events in which every read attempt
comes just after one prompt `> ` and every prompt is followed at once by a read
attempt, so there are as many prompts as read attempts; the lines read are the lines
of the input in order, and each is split by `lsh_split_line` and its tokens dispatched
by `lsh_execute` before the loop goes on; no read is attempted after a line whose
dispatch returns "terminate" (a line whose first token is `exit`); the run does not
fault when every line of the input has fewer than 2^31 − 64 tokens (so that the `int`
counters of `lsh_split_line` do not overflow); and `main` returns only 0.  With no input left, a clean end gives `exit(0)` and a read error
gives the `readline` diagnostic and `exit(EXIT_FAILURE)`, which is not 0.  When the
shell process runs on (allocations succeed, the process is not a forked child, every
child ends) on lines that each have fewer than 2^31 − 64 tokens: if a first `exit` line
exists the process ends with code 0 after reading exactly the lines up to it; otherwise
it reads every line, and ends with code 0 on a clean end of input and with a non-zero
code on a read error.  On the input `cd /tmp`,
`exit`, when `chdir` to `/tmp` succeeds, the exit code is 0, the output is exactly two
prompts, and nothing goes to standard error. -/
theorem main_read_eval_loop (os : OS) (w : World) :
    (main os w).world.trace = w.trace ++ run_events os w
      ∧ prompted (run_events os w) = true
      ∧ prompts_of (run_events os w) = (reads_of (run_events os w)).length
      ∧ reads_of (run_events os w) <+: w.stdin.map some ++ [none]
      ∧ (∀ pre line post, w.stdin = pre ++ line :: post → is_exit line = true →
          (reads_of (run_events os w)).length ≤ pre.length + 1)
      ∧ ((∀ l ∈ w.stdin, fits_int l) → (main os w).isFault = false)
      ∧ (∀ v w1, main os w = .ret v w1 → v = 0)
      ∧ (∀ (line : List Char) (buf : TokBuf) (v : Int) (w0 w1 w2 : World),
          lsh_split_line os line w0 = .ret buf w1 →
          lsh_execute os (argv buf.tokens) w1 = .ret v w2 → (v = 0 ↔ is_exit line = true))
      ∧ (∀ (fuel : Nat) (line : CStr) (rest : List CStr), w.stdin = line :: rest →
          lsh_loop os (fuel + 1) w =
            (lsh_split_line os line (w_read line rest w)).bind fun args w1 =>
              (lsh_execute os (argv args.tokens) w1).bind fun status w2 =>
                if status ≠ 0 then lsh_loop os fuel w2 else .ret () w2)
      ∧ (w.stdin = [] → os.stdin_error = none →
          main os w = .exit 0 (after [prompt, .getline none] w))
      ∧ (∀ e, w.stdin = [] → os.stdin_error = some e →
          main os w = .exit EXIT_FAILURE (after [prompt, .getline none,
            .stderr ("readline: ".toList ++ e ++ "\n".toList)] { w with errno := e }))
      ∧ EXIT_SUCCESS = 0 ∧ EXIT_FAILURE ≠ 0
      ∧ (Benign os → ∀ pre line post, w.stdin = pre ++ line :: post →
          (∀ l ∈ pre, is_exit l = false) → is_exit line = true →
          (∀ l ∈ pre, fits_int l) → fits_int line →
          (∃ w1, main os w = .ret 0 w1 ∧ w1.stdin = post)
            ∧ exit_code (main os w) = some 0
            ∧ reads_of (run_events os w) = (pre ++ [line]).map some
            ∧ prompts_of (run_events os w) = pre.length + 1)
      ∧ (Benign os → (∀ l ∈ w.stdin, is_exit l = false) → os.stdin_error = none →
          (∀ l ∈ w.stdin, fits_int l) →
          exit_code (main os w) = some 0
            ∧ reads_of (run_events os w) = w.stdin.map some ++ [none]
            ∧ prompts_of (run_events os w) = w.stdin.length + 1)
      ∧ (Benign os → ∀ e, (∀ l ∈ w.stdin, is_exit l = false) → os.stdin_error = some e →
          (∀ l ∈ w.stdin, fits_int l) →
          exit_code (main os w) = some EXIT_FAILURE
            ∧ reads_of (run_events os w) = w.stdin.map some ++ [none]
            ∧ "readline: ".toList ++ e ++ "\n".toList ∈ stderr_of (run_events os w))
      ∧ ((∀ k, os.alloc k = true) → (∀ k, os.chdir k "/tmp".toList = none) →
          w.stdin = stdin_lines "cd /tmp\nexit\n".toList →
          exit_code (main os w) = some 0
            ∧ stdout_of (run_events os w) = ["> ".toList, "> ".toList]
            ∧ stderr_of (run_events os w) = []) := by
  obtain ⟨new, h1, h2, h3⟩ := main_trace os w
  have hnew : run_events os w = new := by simp [run_events, h1]
  have hrun : ∀ (w1 : World) (ev : List Event), (main os w).world = w1 →
      w1.trace = w.trace ++ ev → run_events os w = ev := by
    intro w1 ev e1 e2
    simp [run_events, e1, e2]
  refine ⟨by rw [hnew]; exact h1, by rw [hnew]; exact h2.prompted,
    by rw [hnew]; exact h2.counts, by rw [hnew]; exact h2.reads, ?_, ?_, ?_, ?_,
    lsh_loop_step os w, ?_, ?_, rfl, by decide, ?_, ?_, ?_, ?_⟩
  · intro pre line post hs hexit
    rw [hnew]
    rw [hs] at h2
    exact LoopTrace.stops_at_exit pre line hexit post new h2
  · intro hfits
    rcases h3 with h3 | ⟨_, l, hl, hn⟩
    · exact isFault_of_fault_kind _ h3
    · exact absurd (hfits l hl) hn
  · intro v w1 h
    unfold main at h
    cases hl : lsh_loop os (w.stdin.length + 1) w with
    | ret a w2 =>
      rw [hl] at h
      injection h with h4 _
      exact h4.symm
    | exit c w2 => rw [hl] at h; exact Res.noConfusion h
    | exec w2 => rw [hl] at h; exact Res.noConfusion h
    | hang w2 => rw [hl] at h; exact Res.noConfusion h
    | fault why w2 => rw [hl] at h; exact Res.noConfusion h
  · intro line buf v w0 w1 w2 hsplit hexec
    have htok : argv buf.tokens = spec_tokens (cstr line) :=
      lsh_split_line_ret os line w0 buf w1 hsplit
    rw [htok] at hexec
    rw [lsh_execute_status os _ w1 v w2 hexec]
    by_cases hx : (spec_tokens (cstr line)).head? = some "exit".toList
    · simp [is_exit, hx]
    · simp [is_exit, hx]
  · intro hs he
    apply main_of_loop_exit
    rw [lsh_loop_nil os _ w hs, he]
    rfl
  · intro e hs he
    apply main_of_loop_exit
    rw [lsh_loop_nil os _ w hs, he]
    rfl
  · intro hb pre line post hs hpre hexit hfits hfit
    obtain ⟨w1, ev, hl, hst, htr, hr⟩ := loop_benign_exit os hb line post hexit hfit pre
      (w.stdin.length + 1) w hs hpre hfits (by rw [hs]; simp; omega)
    have hm := main_of_loop_ret os w w1 hl
    have hev := hrun w1 ev (by rw [hm]; rfl) htr
    have hc := h2.counts
    rw [← hnew, hev, hr] at hc
    refine ⟨⟨w1, hm, hst⟩, by rw [hm]; rfl, by rw [hev]; exact hr, ?_⟩
    rw [hev, hc]
    simp
  · intro hb hall he hfits
    obtain ⟨w1, ev, hl, htr, hr⟩ := loop_benign_eof os hb w.stdin (w.stdin.length + 1) w rfl
      hall hfits (Nat.lt_succ_self _)
    rw [he] at hl
    have hm := main_of_loop_exit os w w1 _ hl
    have hev := hrun w1 ev (by rw [hm]; rfl) htr
    have hc := h2.counts
    rw [← hnew, hev, hr] at hc
    refine ⟨by rw [hm]; rfl, by rw [hev]; exact hr, ?_⟩
    rw [hev, hc]
    simp
  · intro hb e hall he hfits
    obtain ⟨w1, ev, hl, htr, hr⟩ := loop_benign_eof os hb w.stdin (w.stdin.length + 1) w rfl
      hall hfits (Nat.lt_succ_self _)
    rw [he] at hl
    have hm := main_of_loop_exit os w w1 _ hl
    have hev := hrun w1 ev (by rw [hm]; rfl) htr
    refine ⟨by rw [hm]; rfl, by rw [hev]; exact hr, ?_⟩
    have hen : ev = new := hev.symm.trans hnew
    rw [hnew]
    rw [hen] at hr
    exact h2.read_error e he hr
  · intro halloc hcd hs
    obtain ⟨c, hm⟩ := main_cd_tmp_exit os w halloc hcd hs
    have hev := hrun _ cd_tmp_exit_events (by rw [hm]) rfl
    refine ⟨by rw [hm]; rfl, by rw [hev]; decide, by rw [hev]; decide⟩

theorem os_plain_chdir_tmp (k : Nat) : os_plain.chdir k "/tmp".toList = none := by
  simp [os_plain]

/-- C7 as amended, on the input `cd /tmp`, `exit` in an environment where `/tmp`
exists: both lines have fewer than 2^31 − 64 tokens, exit code 0, two prompts as the
only output, nothing on standard error, two reads. -/
theorem main_read_eval_loop_witness :
    (∀ k, os_plain.alloc k = true) ∧ (∀ k, os_plain.chdir k "/tmp".toList = none)
      ∧ (∀ l ∈ (world_start "cd /tmp\nexit\n").stdin, fits_int l)
      ∧ (world_start "cd /tmp\nexit\n").stdin = stdin_lines "cd /tmp\nexit\n".toList
      ∧ (exit_code (main os_plain (world_start "cd /tmp\nexit\n")) = some 0
        ∧ stdout_of (run_events os_plain (world_start "cd /tmp\nexit\n"))
            = ["> ".toList, "> ".toList]
        ∧ stderr_of (run_events os_plain (world_start "cd /tmp\nexit\n")) = [])
      ∧ reads_of (run_events os_plain (world_start "cd /tmp\nexit\n"))
          = [some "cd /tmp\n".toList, some "exit\n".toList]
      ∧ (main os_plain (world_start "cd /tmp\nexit\n")).world.cwd = "/tmp".toList :=
  ⟨fun _ => rfl, os_plain_chdir_tmp, fits_cd_tmp_exit, rfl,
    (main_read_eval_loop os_plain (world_start "cd /tmp\nexit\n")).2.2.2.2.2.2.2.2.2.2.2.2.2.2.2.2
      (fun _ => rfl) os_plain_chdir_tmp rfl,
    by decide, by decide⟩

/-! ## C9: the prefix of the diagnostics -/

/-- C9 fails as stated: when reading the input fails, the one diagnostic written is
`readline: Input/output error`, which does not start with `lsh:`. -/
theorem diagnostics_readline_counterexample :
    stderr_of (run_events os_read_error (world_start ""))
        = ["readline: Input/output error\n".toList]
      ∧ ¬ (∀ s ∈ stderr_of (run_events os_read_error (world_start "")),
            "lsh:".toList.isPrefixOf s = true) := by
  decide

/-- C9 as amended: in every run of `main`, whatever the environment answers, every
text written to standard error starts with `lsh:`, except the diagnostic of a failed
read of the input, which is `readline: ` followed by the error text.  Site by site:
the missing-argument message of `cd`, the `cd` failure message, the `fork` failure
message, the `execvp` failure message (in the child) and the allocation failure
message (first allocation or growth) start with `lsh:`; the read failure message
starts with `readline:` and not with `lsh:`. -/
theorem diagnostics_lsh_or_readline (os : OS) (w : World) :
    (∀ s ∈ stderr_of (run_events os w), "lsh:".toList.isPrefixOf s = true
        ∨ ∃ e, os.stdin_error = some e ∧ s = "readline: ".toList ++ e ++ "\n".toList)
      ∧ lsh_cd os ["cd".toList] w
          = .ret 1 (after [.stderr "lsh: expected argument to \"cd\"\n".toList] w)
      ∧ (∀ path e, os.chdir w.clock path = some e →
          lsh_cd os ["cd".toList, path] w
            = .ret 1 (after [.chdir path false,
                .stderr ("lsh: ".toList ++ e ++ "\n".toList)] { tick w with errno := e }))
      ∧ (∀ args, (os.fork w.clock).pid < 0 →
          lsh_launch os args w =
            .ret 1 (after [.fork (os.fork w.clock).pid,
                .stderr ("lsh: ".toList ++ (os.fork w.clock).errno ++ "\n".toList)]
              { tick w with errno := (os.fork w.clock).errno }))
      ∧ (∀ args e, (os.fork w.clock).pid = 0 →
          os.execvp (w.clock + 1) (args.headD []) args = some e →
          lsh_launch os args w =
            .exit EXIT_FAILURE (after [.fork 0, .execvp (args.headD []) args,
                .stderr ("lsh: ".toList ++ e ++ "\n".toList)]
              { tick (tick w) with errno := e }))
      ∧ (∀ line, os.alloc w.clock = false →
          lsh_split_line os line w
            = .exit EXIT_FAILURE (after [.stderr "lsh: allocation error\n".toList] (tick w)))
      ∧ (∀ line, ∀ s ∈ stderr_of ((lsh_split_line os line w).world.trace.drop w.trace.length),
          s = "lsh: allocation error\n".toList)
      ∧ (∀ e, w.stdin = [] → os.stdin_error = some e →
          lsh_read_line os w
            = .exit EXIT_FAILURE (after [.getline none,
                .stderr ("readline: ".toList ++ e ++ "\n".toList)] { w with errno := e }))
      ∧ (∀ e : Errno, "lsh:".toList.isPrefixOf ("lsh: ".toList ++ e ++ "\n".toList) = true
          ∧ "lsh:".toList.isPrefixOf ("readline: ".toList ++ e ++ "\n".toList) = false
          ∧ "readline:".toList.isPrefixOf ("readline: ".toList ++ e ++ "\n".toList) = true)
      ∧ "lsh:".toList.isPrefixOf "lsh: expected argument to \"cd\"\n".toList = true
      ∧ "lsh:".toList.isPrefixOf "lsh: allocation error\n".toList = true := by
  obtain ⟨new, h1, h2, _⟩ := main_trace os w
  have hnew : run_events os w = new := by simp [run_events, h1]
  refine ⟨by rw [hnew]; exact h2.diagnostics, rfl, ?_, fun args => lsh_launch_fork_failed os args w,
    ?_, ?_, ?_, ?_, fun e => ⟨rfl, rfl, rfl⟩, by decide, by decide⟩
  · intro path e he
    simp [lsh_cd, chdir, he, perror, emit, after, tick]
  · intro args e hp he
    rw [lsh_launch_child os args w hp, he]
  · intro line ha
    unfold lsh_split_line
    simp [ha, fprintf_stderr, emit, after]
  · intro line s hs
    obtain ⟨c, hc | hc⟩ := lsh_split_line_world os line w
    · rw [hc] at hs
      simp [stderr_of] at hs
    · rw [hc] at hs
      simpa [fprintf_stderr, emit, stderr_of] using hs
  · intro e hs he
    simp [lsh_read_line, hs, he, perror, emit, after]

/-- C9 as amended, at the run that fails to `chdir` and then to read. -/
theorem diagnostics_lsh_or_readline_witness :
    os_read_error.chdir (world_start "cd /nowhere\n").clock "/nowhere".toList
        = some "No such file or directory".toList
      ∧ lsh_cd os_read_error ["cd".toList, "/nowhere".toList] (world_start "cd /nowhere\n")
          = .ret 1 (after [.chdir "/nowhere".toList false,
              .stderr "lsh: No such file or directory\n".toList]
            { tick (world_start "cd /nowhere\n") with
              errno := "No such file or directory".toList })
      ∧ stderr_of (run_events os_read_error (world_start "cd /nowhere\n"))
          = ["lsh: No such file or directory\n".toList,
              "readline: Input/output error\n".toList] :=
  ⟨by decide,
    (diagnostics_lsh_or_readline os_read_error (world_start "cd /nowhere\n")).2.2.1 "/nowhere".toList
      "No such file or directory".toList (by decide),
    by decide⟩

end Lsh
